import Mathlib

/-!
# Web-Crawler-in-C: a shallow embedding and its verified properties

Sources embedded here:

* `src/lib/hashtable.c`  : the Visited Set (`hash_table_*`)
* `src/lib/linkedlist.c` : the Result Collection (`linked_list_*`)
* `src/htmlparser.c`     : the Text Extractor (`clear_whitespace`, `find_text`,
  `find_in_text`)
* `src/crawler.c`        : `str_hash_function`, `exponential_backoff`, and the dedup step,
  the polling loop and the match test of `do_work`

Conventions.

* A C string is the list of its bytes before the terminating NUL; a byte is a `Nat`.
  Reading index `i` of a string `s` sees `s[i]` for `i < s.length`, the terminator `0`
  at `i = s.length`, and is an out-of-bounds read beyond that.
* `int` counters (`len`, `n`) of the list are `Int`; the list lengths considered stay far
  below `2^31`, so no wrap-around is modelled for them. The `int` index `i` of the Text
  Extractor and the `int` delay of the backoff fault when an increment or a doubling leaves
  the `int` range.
* Locks are not modelled: every function is embedded as one sequential call.
* `malloc` is assumed to succeed.
* Behaviour that C leaves undefined (a NULL or uninitialised pointer dereference, a read
  past a terminator, a write past a buffer) is an explicit `Fault`.
-/

set_option autoImplicit false

namespace Crawler

/-! ## Faults -/

/-- The ways in which the embedded C code can leave defined behaviour. -/
inductive Fault where
  | null_deref
  | uninit_deref
  | out_of_bounds_read
  | buffer_overflow
  | signed_overflow
  | out_of_fuel
  deriving DecidableEq, Repr

deriving instance DecidableEq for Except

/-- The increment `i++` of a non-negative `int` index: undefined when `i` is `INT_MAX`, which
is `2^31 - 1 = 2147483647`. -/
def int_incr (i : Nat) : Except Fault Nat :=
  if i < 2147483647 then Except.ok (i + 1) else Except.error Fault.signed_overflow

/-! ## C strings -/

/-- The bytes of an ASCII literal, used to write test inputs. -/
def ascii (s : String) : List Nat := s.toList.map Char.toNat

/-- ISO C `strcmp`: the difference of the first pair of bytes that differ, the terminator `0`
standing at the end of each list; the comparison stops at a NUL met in both strings. -/
def strcmp : List Nat → List Nat → Int
  | [], [] => 0
  | [], b :: _ => 0 - (b : Int)
  | a :: _, [] => (a : Int) - 0
  | a :: as, b :: bs =>
      if a = b then (if a = 0 then 0 else strcmp as bs) else (a : Int) - (b : Int)

/-- The `int` a plain `char` holding byte `b` converts to in `c = *str++`. The signedness of
plain `char` is left to the implementation; it is signed under gcc on x86-64 Linux, the
platform assumed here, so bytes from 128 up read as negative. -/
def char_to_int (b : Nat) : Int := if b < 128 then (b : Int) else (b : Int) - 256

/-- The `while ((c = *str++))` loop of `str_hash_function`: `hash = ((hash << 5) + hash) + c`
in `unsigned long` arithmetic (modulo `2^64`), stopping at the terminator. -/
def str_hash_function_loop : Nat → List Nat → Nat
  | hash, [] => hash
  | hash, c :: str =>
      if c = 0 then hash
      else
        str_hash_function_loop
          (Int.toNat ((((((hash * 2 ^ 5) % 2 ^ 64 + hash) % 2 ^ 64 : Nat) : Int) + char_to_int c)
            % 2 ^ 64)) str

/-- `str_hash_function` of `crawler.c`. -/
def str_hash_function (a : List Nat) : Nat := str_hash_function_loop 5381 a

/-! ## Visited Set: `src/lib/hashtable.c` -/

/-- `DEFAULT_SIZE` of `hashtable.h`. -/
def DEFAULT_SIZE : Nat := 1013

/-- `struct hash_table`: `elements[i]` is the chain of bucket `i`, head first. -/
structure hash_table (α : Type) where
  size : Nat
  elements : List (List α)
  compare : α → α → Int
  hash : α → Nat

/-- `GET_INDEX(hash_value, size)`. -/
def GET_INDEX (hash_value size : Nat) : Nat := hash_value % size

/-- `hash_table_create`: `size < 1` selects `DEFAULT_SIZE`; every bucket starts `NULL`. -/
def hash_table_create {α : Type} (cmp_fn : α → α → Int) (hash_fn : α → Nat) (size : Int) :
    hash_table α :=
  let sz : Nat := if size < 1 then DEFAULT_SIZE else size.toNat
  { size := sz, elements := List.replicate sz [], compare := cmp_fn, hash := hash_fn }

/-- `hash_table_insert`: an empty bucket receives the new node, a non-empty bucket gets the
new node linked in front of its chain; the call returns `true`. -/
def hash_table_insert {α : Type} (table : hash_table α) (element : α) : hash_table α × Bool :=
  let index := GET_INDEX (table.hash element) table.size
  match table.elements.getD index [] with
  | [] => ({ table with elements := table.elements.set index [element] }, true)
  | node :: next =>
      ({ table with elements := table.elements.set index (element :: node :: next) }, true)

/-- The `while (node)` loop of `hash_table_contains` over one bucket chain. -/
def hash_table_contains_loop {α : Type} (compare : α → α → Int) (element : α) : List α → Bool
  | [] => false
  | data :: next =>
      if compare data element = 0 then true else hash_table_contains_loop compare element next

/-- `hash_table_contains`. -/
def hash_table_contains {α : Type} (table : hash_table α) (element : α) : Bool :=
  let index := GET_INDEX (table.hash element) table.size
  hash_table_contains_loop table.compare element (table.elements.getD index [])

/-- A table state as `hash_table_create` and `hash_table_insert` leave it: at least one
bucket, and as many chains as `size` says. -/
def hash_table_wf {α : Type} (table : hash_table α) : Prop :=
  1 ≤ table.size ∧ table.elements.length = table.size

/-- The worker's dedup step in `do_work` (`crawler.c` 147-150): the URL is skipped when
`hash_table_contains` finds it, otherwise it is inserted and goes on to be fetched. The Boolean
tells whether the URL passed (is fetched). -/
def dedup_step {α : Type} (table : hash_table α) (url : α) : hash_table α × Bool :=
  if hash_table_contains table url then (table, false)
  else ((hash_table_insert table url).1, true)

/-- The dedup step applied to a sequence of popped URLs, one after another; returns the final
table and the URLs that passed, in order. -/
def dedup_run {α : Type} : hash_table α → List α → hash_table α × List α
  | table, [] => (table, [])
  | table, url :: rest =>
      let r := dedup_step table url
      let rr := dedup_run r.1 rest
      (rr.1, if r.2 then url :: rr.2 else rr.2)

/-- The global `table` as `main` creates it (`crawler.c` 228). -/
def crawler_table : hash_table (List Nat) := hash_table_create strcmp str_hash_function (-1)

/-- No bucket chain holds two entries that `strcmp` reports equal. -/
def buckets_distinct (t : hash_table (List Nat)) : Prop :=
  ∀ bucket ∈ t.elements, bucket.Pairwise (fun x y => strcmp x y ≠ 0)

/-! ## Result Collection: `src/lib/linkedlist.c`

The effect of a `gen_fun_t` callback (`val_teardown`, the function given to
`linked_list_map`) is a transformer of the state `σ` of the world outside the list.  -/

/-- `struct linked_list`: `hd` is the chain of node values from the head on, `len` the stored
running length, `val_teardown` the caller's per-value cleanup. -/
structure linked_list (α σ : Type) where
  len : Int
  hd : List α
  val_teardown : α → σ → σ

/-- A local `linked_list_node_t *`: never assigned, `NULL`, or the node at position `k` of the
chain that starts at `hd`. -/
inductive node_ptr where
  | uninit
  | null
  | node (k : Nat)
  deriving DecidableEq, Repr

/-- `linked_list_new`. -/
def linked_list_new {α σ : Type} (val_teardown : α → σ → σ) : linked_list α σ :=
  { len := 0, hd := [], val_teardown := val_teardown }

/-- The `while (node != NULL)` loop of `linked_list_delete`: `val_teardown` runs on the value
of each node before the node is freed. -/
def linked_list_delete_loop {α σ : Type} (val_teardown : α → σ → σ) : List α → σ → σ
  | [], s => s
  | val :: nxt, s => linked_list_delete_loop val_teardown nxt (val_teardown val s)

/-- `linked_list_delete`: the list is freed, what remains is the state of the world. -/
def linked_list_delete {α σ : Type} (list : linked_list α σ) (s : σ) : σ :=
  linked_list_delete_loop list.val_teardown list.hd s

/-- The `for (; n > 1; n--)` loop of `linked_list_select_n_min_1`: `steps` iterations remain
and `*node` is the node at position `k`; `last->nxt` is `NULL` when no node follows. -/
def linked_list_select_loop {α : Type} (chain : List α) : Nat → Nat → Int × node_ptr
  | 0, k => (0, node_ptr.node k)
  | steps + 1, k =>
      if k + 1 < chain.length then linked_list_select_loop chain steps (k + 1)
      else (-1, node_ptr.null)

/-- `linked_list_select_n_min_1`: returns the status and the final content of `*node`, which
the caller passes in as `node`. -/
def linked_list_select_n_min_1 {α σ : Type} (list : linked_list α σ) (node : node_ptr)
    (n : Int) : Int × node_ptr :=
  if n < 0 then (-1, node)
  else if n = 0 then (0, node)
  else
    match list.hd with
    | [] => (-1, node_ptr.null)
    | _ :: _ => linked_list_select_loop list.hd (n.toNat - 1) 0

/-- The chain after `new_node->nxt = nth_node->nxt; nth_node->nxt = new_node`, `nth_node`
being the node at position `k`. -/
def link_after {α : Type} : List α → Nat → α → List α
  | [], _, _ => []
  | x :: nxt, 0, val => x :: val :: nxt
  | x :: nxt, k + 1, val => x :: link_after nxt k val

/-- The chain after `nth_node->nxt = nth_node->nxt == NULL ? NULL : nth_node->nxt->nxt`,
`nth_node` being the node at position `k`. -/
def unlink_after {α : Type} : List α → Nat → List α
  | [], _ => []
  | x :: nxt, 0 => x :: nxt.tail
  | x :: nxt, k + 1 => x :: unlink_after nxt k

/-- `linked_list_insert_n`: the list after the call and the returned `int`. -/
def linked_list_insert_n {α σ : Type} (list : linked_list α σ) (val : α) (n : Int) :
    Except Fault (linked_list α σ × Int) :=
  if n = 0 then
    let list1 := { list with hd := val :: list.hd }
    let list2 := { list1 with len := list1.len + 1 }
    Except.ok (list2, list2.len)
  else
    let r := linked_list_select_n_min_1 list node_ptr.uninit n
    if r.1 ≠ 0 then Except.ok (list, -1)
    else
      match r.2 with
      | node_ptr.node k =>
          let list1 := { list with hd := link_after list.hd k val }
          let list2 := { list1 with len := list1.len + 1 }
          Except.ok (list2, list2.len)
      | node_ptr.null => Except.error Fault.null_deref
      | node_ptr.uninit => Except.error Fault.uninit_deref

/-- `linked_list_insert_first`. -/
def linked_list_insert_first {α σ : Type} (list : linked_list α σ) (val : α) :
    Except Fault (linked_list α σ × Int) :=
  linked_list_insert_n list val 0

/-- `linked_list_insert_last`. -/
def linked_list_insert_last {α σ : Type} (list : linked_list α σ) (val : α) :
    Except Fault (linked_list α σ × Int) :=
  linked_list_insert_n list val list.len

/-- `linked_list_remove_n`: the list after the call, the state of the world after
`val_teardown` ran, and the returned `int`. `tmp` is the node that follows `nth_node`, or the
head when `n == 0`; its `val` (and, for the head, its `nxt`) is read whether or not it is
`NULL`. -/
def linked_list_remove_n {α σ : Type} (list : linked_list α σ) (n : Int) (s : σ) :
    Except Fault (linked_list α σ × σ × Int) :=
  if n = 0 then
    match list.hd with
    | [] => Except.error Fault.null_deref
    | tmp :: nxt =>
        let list1 := { list with hd := nxt }
        let list2 := { list1 with len := list1.len - 1 }
        Except.ok (list2, list.val_teardown tmp s, list2.len)
  else
    let r := linked_list_select_n_min_1 list node_ptr.uninit n
    if r.1 ≠ 0 then Except.ok (list, s, -1)
    else
      match r.2 with
      | node_ptr.node k =>
          let tmp := list.hd[k + 1]?
          let list1 := { list with hd := unlink_after list.hd k }
          let list2 := { list1 with len := list1.len - 1 }
          match tmp with
          | none => Except.error Fault.null_deref
          | some val => Except.ok (list2, list.val_teardown val s, list2.len)
      | node_ptr.null => Except.error Fault.null_deref
      | node_ptr.uninit => Except.error Fault.uninit_deref

/-- `linked_list_remove_n` up to the `RWUNLOCK(list->m)` that follows `(list->len)--`, where
`tmp->val` has not been read yet: `none` stands for the early `return -1`, otherwise the list
as it is at that point comes with `tmp` (`none` for `NULL`). -/
def linked_list_remove_n_unlinked {α σ : Type} (list : linked_list α σ) (n : Int) :
    Except Fault (Option (linked_list α σ × Option α)) :=
  if n = 0 then
    match list.hd with
    | [] => Except.error Fault.null_deref
    | tmp :: nxt =>
        let list1 := { list with hd := nxt }
        let list2 := { list1 with len := list1.len - 1 }
        Except.ok (some (list2, some tmp))
  else
    let r := linked_list_select_n_min_1 list node_ptr.uninit n
    if r.1 ≠ 0 then Except.ok none
    else
      match r.2 with
      | node_ptr.node k =>
          let tmp := list.hd[k + 1]?
          let list1 := { list with hd := unlink_after list.hd k }
          let list2 := { list1 with len := list1.len - 1 }
          Except.ok (some (list2, tmp))
      | node_ptr.null => Except.error Fault.null_deref
      | node_ptr.uninit => Except.error Fault.uninit_deref

/-- `linked_list_remove_first`. -/
def linked_list_remove_first {α σ : Type} (list : linked_list α σ) (s : σ) :
    Except Fault (linked_list α σ × σ × Int) :=
  linked_list_remove_n list 0 s

/-- `linked_list_get_n`: `none` is the returned `NULL`, `some v` the returned `node->val`;
`node` is dereferenced once the selection reports success. -/
def linked_list_get_n {α σ : Type} (list : linked_list α σ) (n : Int) :
    Except Fault (Option α) :=
  let r := linked_list_select_n_min_1 list node_ptr.uninit (n + 1)
  if r.1 ≠ 0 then Except.ok none
  else
    match r.2 with
    | node_ptr.node k =>
        match list.hd[k]? with
        | some val => Except.ok (some val)
        | none => Except.error Fault.null_deref
    | node_ptr.null => Except.error Fault.null_deref
    | node_ptr.uninit => Except.error Fault.uninit_deref

/-- `linked_list_get_first`. -/
def linked_list_get_first {α σ : Type} (list : linked_list α σ) : Except Fault (Option α) :=
  linked_list_get_n list 0

/-- The `while ((node != NULL) && !(cond(node->val)))` loop of `linked_list_remove_search`
from the node at position `k` on: the position and the value of the first node whose value
`cond` accepts, `none` when `node` reaches `NULL`. -/
def linked_list_remove_search_loop {α : Type} (cond : α → Bool) :
    List α → Nat → Option (Nat × α)
  | [], _ => none
  | val :: nxt, k =>
      if cond val then some (k, val) else linked_list_remove_search_loop cond nxt (k + 1)

/-- `linked_list_remove_search`: the list after the call, the state of the world after
`val_teardown` ran, and the returned `int`. A node found at the head is unlinked through
`list->hd`, any other through its predecessor `last`. -/
def linked_list_remove_search {α σ : Type} (list : linked_list α σ) (cond : α → Bool) (s : σ) :
    linked_list α σ × σ × Int :=
  match linked_list_remove_search_loop cond list.hd 0 with
  | none => (list, s, -1)
  | some (0, val) =>
      let list1 := { list with hd := list.hd.tail }
      let list2 := { list1 with len := list1.len - 1 }
      (list2, list.val_teardown val s, list2.len)
  | some (k + 1, val) =>
      let list1 := { list with hd := unlink_after list.hd k }
      let list2 := { list1 with len := list1.len - 1 }
      (list2, list.val_teardown val s, list2.len)

/-- A callback that records the value it is called on at the end of a log. -/
def record_call {α : Type} (val : α) (log : List α) : List α := log ++ [val]

/-! ## Text Extractor: `src/htmlparser.c`

Bytes are written by their ASCII codes: `' '` is 32, `'\n'` is 10, `'<'` is 60, `'>'` is 62
and the terminator `'\0'` is 0. The index `i` is an `int`: it starts at 0 and only grows, so
it is a `Nat` here, and each `i++` is checked against `INT_MAX`. Every loop carries a fuel
counter; the entry points supply `length + 2`, more than the number of bytes any loop can
step over before it stops or reads out of bounds. -/

/-- `BUFSIZE` of `htmlparser.c`. -/
def BUFSIZE : Nat := 1638400

/-- The byte `str[i]`: a byte of the string, the terminator right after it, nothing beyond. -/
def char_at (str : List Nat) (i : Nat) : Option Nat := (str ++ [0])[i]?

/-- A read of `str[i]` as a step of the program. -/
def read_char (str : List Nat) (i : Nat) : Except Fault Nat :=
  match char_at str i with
  | some c => Except.ok c
  | none => Except.error Fault.out_of_bounds_read

/-- The loop of `clear_whitespace`: `while (str[i] == ' ' || str[i] == '\n') i++;`. -/
def clear_whitespace_loop (str : List Nat) : Nat → Nat → Except Fault Nat
  | 0, _ => Except.error Fault.out_of_fuel
  | fuel + 1, i =>
      match read_char str i with
      | Except.error e => Except.error e
      | Except.ok c =>
          if c = 32 ∨ c = 10 then
            match int_incr i with
            | Except.error e => Except.error e
            | Except.ok i1 => clear_whitespace_loop str fuel i1
          else Except.ok i

/-- `clear_whitespace`. -/
def clear_whitespace (str : List Nat) (i : Nat) : Except Fault Nat :=
  clear_whitespace_loop str (str.length + 2) i

/-- The tag-skipping loop of `find_text`: `while (html_code[i++] != '>');`. -/
def skip_tag_loop (html_code : List Nat) : Nat → Nat → Except Fault Nat
  | 0, _ => Except.error Fault.out_of_fuel
  | fuel + 1, i =>
      match read_char html_code i with
      | Except.error e => Except.error e
      | Except.ok c =>
          match int_incr i with
          | Except.error e => Except.error e
          | Except.ok i1 => if c ≠ 62 then skip_tag_loop html_code fuel i1 else Except.ok i1

/-- The copying loop of `find_text`, with the terminator written after it:
`while (html_code[i] != '<') buffer[j++] = html_code[i++]; buffer[j] = '\0';`.
`buffer` holds the `j` bytes written so far; a write at index `BUFSIZE` or beyond leaves the
array. Returns the final `i` and the bytes written before the terminator. -/
def copy_text_loop (html_code : List Nat) : Nat → Nat → List Nat → Except Fault (Nat × List Nat)
  | 0, _, _ => Except.error Fault.out_of_fuel
  | fuel + 1, i, buffer =>
      match read_char html_code i with
      | Except.error e => Except.error e
      | Except.ok c =>
          if buffer.length < BUFSIZE then
            if c ≠ 60 then
              match int_incr i with
              | Except.error e => Except.error e
              | Except.ok i1 => copy_text_loop html_code fuel i1 (buffer ++ [c])
            else Except.ok (i, buffer)
          else Except.error Fault.buffer_overflow

/-- The segment copied out of `buffer` by `strlen` and `strcpy`: the bytes before the first
NUL. -/
def strcpy_buffer (buffer : List Nat) : List Nat := buffer.takeWhile (fun b => b != 0)

/-- The main `while (html_code[i++] != '\0')` loop of `find_text`; `results` is the chain of
segments from `head` to `current`. -/
def find_text_loop (html_code : List Nat) :
    Nat → Nat → List (List Nat) → Except Fault (List (List Nat))
  | 0, _, _ => Except.error Fault.out_of_fuel
  | fuel + 1, i, results => do
      let c ← read_char html_code i
      let i0 ← int_incr i
      if c = 0 then
        return results
      let i1 ← skip_tag_loop html_code (html_code.length + 2) i0
      let i2 ← clear_whitespace html_code i1
      let c2 ← read_char html_code i2
      if c2 = 60 then
        find_text_loop html_code fuel i2 results
      else
        let i3 ← clear_whitespace html_code i2
        let c3 ← read_char html_code i3
        if c3 = 0 then
          return results
        let r ← copy_text_loop html_code (html_code.length + 2) i3 []
        find_text_loop html_code fuel r.1 (results ++ [strcpy_buffer r.2])

/-- `find_text`: the segments in the order of the returned chain (`[]` is `NULL`). -/
def find_text (html_code : List Nat) : Except Fault (List (List Nat)) := do
  let i ← clear_whitespace html_code 0
  find_text_loop html_code (html_code.length + 2) i []

/-- A tag: `'<'`, a body, `'>'`. -/
def tag (body : List Nat) : List Nat := 60 :: (body ++ [62])

/-- Adjacent tags with the given bodies, nothing between them. -/
def tags (bodies : List (List Nat)) : List Nat := (bodies.map tag).flatten

/-- A byte that `clear_whitespace` steps over: a space or a newline. -/
def is_space (c : Nat) : Bool := c == 32 || c == 10

/-- A text run without its leading run of spaces and newlines. -/
def trim_left (t : List Nat) : List Nat := t.dropWhile is_space

/-- A page: each item is a tag, given by its body, and the text run that follows the tag. -/
def page (items : List (List Nat × List Nat)) : List Nat :=
  (items.map (fun it => tag it.1 ++ it.2)).flatten

/-- The text run after the last tag of a page. -/
def last_text (items : List (List Nat × List Nat)) : List Nat :=
  match items.getLast? with
  | some it => it.2
  | none => []

/-- The text runs of a page that hold more than spaces and newlines, each without its leading
spaces and newlines. -/
def segments_of (items : List (List Nat × List Nat)) : List (List Nat) :=
  items.filterMap (fun it => if trim_left it.2 = [] then none else some (trim_left it.2))

/-- A well-formed input `ws0 ++ page items`: `ws0` holds only spaces and newlines, no tag body
holds `'>'`, no text run holds `'<'` or NUL, every text run is shorter than `BUFSIZE` once its
leading spaces and newlines are gone, and only spaces and newlines follow the last tag. With
`ws0 = []` and nothing after the last tag the input begins and ends with a tag. -/
def page_wf (ws0 : List Nat) (items : List (List Nat × List Nat)) : Prop :=
  trim_left ws0 = [] ∧
  (∀ it ∈ items, 62 ∉ it.1 ∧ 60 ∉ it.2 ∧ 0 ∉ it.2 ∧ (trim_left it.2).length < BUFSIZE) ∧
  trim_left (last_text items) = []

instance (ws0 : List Nat) (items : List (List Nat × List Nat)) : Decidable (page_wf ws0 items) := by
  unfold page_wf
  infer_instance

/-- Whether `needle` stands at the very start of `haystack`. -/
def starts_with : List Nat → List Nat → Bool
  | _, [] => true
  | [], _ :: _ => false
  | h :: haystack, n :: needle => if h = n then starts_with haystack needle else false

/-- ISO C `strstr` on the bytes before the terminators: the offset of the first occurrence of
`needle` in `haystack` (`some 0` for an empty `needle`), `none` for `NULL`. -/
def strstr : List Nat → List Nat → Option Nat
  | [], needle => if starts_with [] needle then some 0 else none
  | h :: haystack, needle =>
      if starts_with (h :: haystack) needle then some 0
      else (strstr haystack needle).map (fun k => k + 1)

/-- `find_in_text`: the `for` loop over the chain of segments. -/
def find_in_text (expr : List Nat) : List (List Nat) → Bool
  | [] => false
  | text :: next => if (strstr text expr).isSome then true else find_in_text expr next

/-! ### The Text Extractor with its memory accesses recorded

The same code once more, every read of `html_code[i]` and every write of `buffer[j]` being
logged, in order, before it is checked: the log holds each access the run attempts, the one
that leaves the bounds included. -/

/-- One access of `find_text` to memory: a read of `html_code[i]` or a write of `buffer[j]`. -/
inductive access where
  | read (i : Nat)
  | write (j : Nat)
  deriving DecidableEq, Repr

/-- A run that logs its accesses: the log and the outcome. -/
structure Traced (X : Type) where
  trace : List access
  result : Except Fault X

/-- A step that accesses nothing. -/
def Traced.pure {X : Type} (x : X) : Traced X := ⟨[], Except.ok x⟩

/-- One run after another: the second runs when the first has an outcome, and the logs are
joined. -/
def Traced.bind {X Y : Type} (m : Traced X) (f : X → Traced Y) : Traced Y :=
  match m.result with
  | Except.error e => ⟨m.trace, Except.error e⟩
  | Except.ok x => ⟨m.trace ++ (f x).trace, (f x).result⟩

instance : Monad Traced where
  pure := Traced.pure
  bind := Traced.bind

/-- A logged read of `str[i]`. -/
def traced_read (str : List Nat) (i : Nat) : Traced Nat :=
  ⟨[access.read i], read_char str i⟩

/-- A logged write of `buffer[j]`. -/
def traced_write (j : Nat) : Traced Unit :=
  ⟨[access.write j], if j < BUFSIZE then Except.ok () else Except.error Fault.buffer_overflow⟩

/-- The increment `i++`, which accesses no memory. -/
def traced_incr (i : Nat) : Traced Nat := ⟨[], int_incr i⟩

/-- A run stopped for lack of fuel. -/
def traced_out_of_fuel {X : Type} : Traced X := ⟨[], Except.error Fault.out_of_fuel⟩

/-- The loop of `clear_whitespace`, logged. -/
def clear_whitespace_loop_traced (str : List Nat) : Nat → Nat → Traced Nat
  | 0, _ => traced_out_of_fuel
  | fuel + 1, i => do
      let c ← traced_read str i
      if c = 32 ∨ c = 10 then do
        let i1 ← traced_incr i
        clear_whitespace_loop_traced str fuel i1
      else pure i

/-- `clear_whitespace`, logged. -/
def clear_whitespace_traced (str : List Nat) (i : Nat) : Traced Nat :=
  clear_whitespace_loop_traced str (str.length + 2) i

/-- The tag-skipping loop of `find_text`, logged. -/
def skip_tag_loop_traced (html_code : List Nat) : Nat → Nat → Traced Nat
  | 0, _ => traced_out_of_fuel
  | fuel + 1, i => do
      let c ← traced_read html_code i
      let i1 ← traced_incr i
      if c ≠ 62 then skip_tag_loop_traced html_code fuel i1 else pure i1

/-- The copying loop of `find_text` with the write of the terminator, logged: each round
reads `html_code[i]` and then writes `buffer[j]`, the byte read or the terminator. -/
def copy_text_loop_traced (html_code : List Nat) : Nat → Nat → List Nat → Traced (Nat × List Nat)
  | 0, _, _ => traced_out_of_fuel
  | fuel + 1, i, buffer => do
      let c ← traced_read html_code i
      traced_write buffer.length
      if c ≠ 60 then do
        let i1 ← traced_incr i
        copy_text_loop_traced html_code fuel i1 (buffer ++ [c])
      else pure (i, buffer)

/-- The main loop of `find_text`, logged. -/
def find_text_loop_traced (html_code : List Nat) :
    Nat → Nat → List (List Nat) → Traced (List (List Nat))
  | 0, _, _ => traced_out_of_fuel
  | fuel + 1, i, results => do
      let c ← traced_read html_code i
      let i0 ← traced_incr i
      if c = 0 then
        return results
      let i1 ← skip_tag_loop_traced html_code (html_code.length + 2) i0
      let i2 ← clear_whitespace_traced html_code i1
      let c2 ← traced_read html_code i2
      if c2 = 60 then
        find_text_loop_traced html_code fuel i2 results
      else
        let i3 ← clear_whitespace_traced html_code i2
        let c3 ← traced_read html_code i3
        if c3 = 0 then
          return results
        let r ← copy_text_loop_traced html_code (html_code.length + 2) i3 []
        find_text_loop_traced html_code fuel r.1 (results ++ [strcpy_buffer r.2])

/-- `find_text`, logged. -/
def find_text_traced (html_code : List Nat) : Traced (List (List Nat)) := do
  let i ← clear_whitespace_traced html_code 0
  find_text_loop_traced html_code (html_code.length + 2) i []

/-- An access inside its object: a read of the input at an index no greater than the
terminator's, a write inside the `BUFSIZE` bytes of `buffer`. -/
def access_ok (html_code : List Nat) : access → Prop
  | access.read i => i ≤ html_code.length
  | access.write j => j < BUFSIZE

/-- A logged run whose outcome, when it has one, comes with a log of accesses that are all
inside their objects. -/
def Traced.sound {X : Type} (html_code : List Nat) (m : Traced X) : Prop :=
  ∀ x, m.result = Except.ok x → ∀ a ∈ m.trace, access_ok html_code a

/-! ## Worker: `src/crawler.c` -/

/-- `MAX_DELAY` of `crawler.c`. -/
def MAX_DELAY : Int := 5000000

/-- The largest `int`. -/
def INT_MAX : Int := 2 ^ 31 - 1

/-- The smallest `int`. -/
def INT_MIN : Int := -(2 ^ 31)

/-- `exponential_backoff`: after the sleep (which leaves no trace in this model),
`useconds *= 2` in `int` arithmetic, where leaving the `int` range is undefined; the result
is returned as the unsigned 32-bit `useconds_t`. -/
def exponential_backoff (useconds : Int) : Except Fault Nat :=
  if useconds * 2 > INT_MAX ∨ useconds * 2 < INT_MIN then Except.error Fault.signed_overflow
  else
    let useconds := useconds * 2
    if useconds > MAX_DELAY then Except.ok 0
    else Except.ok (useconds % 2 ^ 32).toNat

/-- The polling part of the loop of `do_work` (lines 136-143) while `queue_trypop` reports an
empty queue every time: returns the delays handed to `exponential_backoff`, in order, up to
the one answered by `0`, on which the worker leaves the loop. -/
def poll_empty_frontier : Nat → Nat → Except Fault (List Nat)
  | 0, _ => Except.error Fault.out_of_fuel
  | fuel + 1, delay =>
      match exponential_backoff (delay : Int) with
      | Except.error e => Except.error e
      | Except.ok next =>
          if next = 0 then Except.ok [delay]
          else
            match poll_empty_frontier fuel next with
            | Except.error e => Except.error e
            | Except.ok rest => Except.ok (delay :: rest)

/-- The backoff policy in the words of the specification:
`next(delay) = delay < max_delay ? delay * 2 : terminate`, the sentinel being `0`. -/
def backoff_policy_spec (delay : Int) : Int := if delay < MAX_DELAY then delay * 2 else 0

/-- The match test of `do_work` (lines 171-181) on the fetched `content`: on a match `url` is
appended to `results` and the worker leaves its loop (`true`), otherwise `results` is left
alone. -/
def match_step {α σ : Type} (results : linked_list α σ) (url : α) (expr content : List Nat) :
    Except Fault (linked_list α σ × Bool) :=
  match find_text content with
  | Except.error e => Except.error e
  | Except.ok result =>
      if find_in_text expr result then
        match linked_list_insert_last results url with
        | Except.error e => Except.error e
        | Except.ok r => Except.ok (r.1, true)
      else Except.ok (results, false)

/-- The djb2 fold in the words of the specification: from 5381, `hash * 33 + byte` for each
byte in order, modulo `2^64`. -/
def djb2_spec (s : List Nat) : Nat := s.foldl (fun hash b => (hash * 33 + b) % 2 ^ 64) 5381

/-- The fold `str_hash_function` computes: as `djb2_spec`, but each byte enters with the value
it has as a plain `char`. -/
def djb2_char (s : List Nat) : Nat :=
  s.foldl (fun hash b => Int.toNat (((hash : Int) * 33 + char_to_int b) % 2 ^ 64)) 5381

/-! ## Theorems -/

theorem strcmp_self (u : List Nat) : strcmp u u = 0 := by
  induction u with
  | nil => rfl
  | cons a as ih => simp [strcmp, ih]

theorem GET_INDEX_lt (h size : Nat) (hs : 1 ≤ size) : GET_INDEX h size < size :=
  Nat.mod_lt _ hs

theorem hash_table_insert_elements {α : Type} (t : hash_table α) (u : α) :
    (hash_table_insert t u).1.elements =
      t.elements.set (GET_INDEX (t.hash u) t.size)
        (u :: t.elements.getD (GET_INDEX (t.hash u) t.size) []) := by
  unfold hash_table_insert
  dsimp only
  split <;> rename_i h <;> simp only [h]

theorem strcmp_eq_zero_iff (x y : List Nat) :
    strcmp x y = 0 ↔ x.takeWhile (fun b => b != 0) = y.takeWhile (fun b => b != 0) := by
  induction x generalizing y with
  | nil =>
    cases y with
    | nil => simp [strcmp]
    | cons b bs =>
      by_cases hb : b = 0
      · simp [strcmp, hb]
      · simp [strcmp, hb, List.takeWhile_cons]
  | cons a as ih =>
    cases y with
    | nil =>
      by_cases ha : a = 0
      · simp [strcmp, ha]
      · simp [strcmp, ha, List.takeWhile_cons]
    | cons b bs =>
      by_cases hab : a = b
      · subst hab
        by_cases ha : a = 0
        · simp [strcmp, ha, ih]
        · simp [strcmp, ha, ih, List.takeWhile_cons]
      · have hne : (a : Int) - (b : Int) ≠ 0 := by omega
        by_cases ha : a = 0 <;> by_cases hb : b = 0 <;>
          simp [strcmp, hab, hne, ha, hb, List.takeWhile_cons]
        all_goals omega

theorem strcmp_symm_zero (x y : List Nat) (h : strcmp x y = 0) : strcmp y x = 0 :=
  (strcmp_eq_zero_iff y x).2 ((strcmp_eq_zero_iff x y).1 h).symm

theorem strcmp_trans_zero (x y z : List Nat) (h1 : strcmp x y = 0) (h2 : strcmp y z = 0) :
    strcmp x z = 0 :=
  (strcmp_eq_zero_iff x z).2
    (((strcmp_eq_zero_iff x y).1 h1).trans ((strcmp_eq_zero_iff y z).1 h2))

theorem hash_table_contains_loop_iff {α : Type} (cmp : α → α → Int) (e : α) (l : List α) :
    hash_table_contains_loop cmp e l = true ↔ ∃ x ∈ l, cmp x e = 0 := by
  induction l with
  | nil => simp [hash_table_contains_loop]
  | cons d next ih =>
    by_cases hd : cmp d e = 0
    · simp [hash_table_contains_loop, hd]
    · simp [hash_table_contains_loop, hd, ih]

theorem getD_set_self {β : Type} (l : List β) (i : Nat) (x d : β) (hi : i < l.length) :
    (l.set i x).getD i d = x := by
  simp [List.getD, hi]

theorem getD_set_ne {β : Type} (l : List β) (i j : Nat) (x d : β) (hij : i ≠ j) :
    (l.set i x).getD j d = l.getD j d := by
  simp [List.getD, List.getElem?_set_ne hij]

theorem hash_table_create_wf {α : Type} (cmp : α → α → Int) (hash : α → Nat) (size : Int) :
    hash_table_wf (hash_table_create cmp hash size) := by
  unfold hash_table_wf hash_table_create
  refine ⟨?_, by simp⟩
  dsimp only
  split
  · decide
  · omega

theorem hash_table_insert_wf {α : Type} (t : hash_table α) (u : α) (hwf : hash_table_wf t) :
    hash_table_wf (hash_table_insert t u).1 := by
  have he := hash_table_insert_elements t u
  have hs : (hash_table_insert t u).1.size = t.size := by
    unfold hash_table_insert; dsimp only; split <;> rfl
  unfold hash_table_wf at *
  rw [he, hs, List.length_set]
  exact hwf

theorem hash_table_insert_fields {α : Type} (t : hash_table α) (u : α) :
    (hash_table_insert t u).1.size = t.size ∧ (hash_table_insert t u).1.compare = t.compare ∧
      (hash_table_insert t u).1.hash = t.hash ∧ (hash_table_insert t u).2 = true := by
  unfold hash_table_insert; dsimp only; split <;> exact ⟨rfl, rfl, rfl, rfl⟩

theorem hash_table_create_contains {α : Type} (cmp : α → α → Int) (hash : α → Nat) (size : Int)
    (v : α) : hash_table_contains (hash_table_create cmp hash size) v = false := by
  unfold hash_table_contains hash_table_create
  dsimp only
  have : ∀ (n i : Nat), (List.replicate n ([] : List α)).getD i [] = [] := by
    intro n i
    by_cases h : i < n
    · simp [List.getD, List.getElem?_replicate, h]
    · simp [List.getD, List.getElem?_replicate, h]
  rw [this]
  rfl

theorem hash_table_contains_insert {α : Type} (t : hash_table α) (u v : α)
    (hwf : hash_table_wf t) :
    hash_table_contains (hash_table_insert t u).1 v =
      if GET_INDEX (t.hash u) t.size = GET_INDEX (t.hash v) t.size then
        (decide (t.compare u v = 0) || hash_table_contains t v)
      else hash_table_contains t v := by
  have hf := hash_table_insert_fields t u
  have hlt : GET_INDEX (t.hash u) t.size < t.elements.length := by
    rw [hwf.2]; exact GET_INDEX_lt _ _ hwf.1
  unfold hash_table_contains
  dsimp only
  rw [hf.1, hf.2.1, hf.2.2.1, hash_table_insert_elements]
  by_cases hidx : GET_INDEX (t.hash u) t.size = GET_INDEX (t.hash v) t.size
  · rw [if_pos hidx, ← hidx, getD_set_self _ _ _ _ hlt]
    by_cases hc : t.compare u v = 0
    · simp [hash_table_contains_loop, hc]
    · simp [hash_table_contains_loop, hc]
  · rw [if_neg hidx, getD_set_ne _ _ _ _ _ hidx]

theorem buckets_distinct_create (hash_fn : List Nat → Nat) (size : Int) :
    buckets_distinct (hash_table_create strcmp hash_fn size) := by
  intro bucket hb
  unfold hash_table_create at hb
  dsimp only at hb
  rw [List.eq_of_mem_replicate hb]
  exact List.Pairwise.nil

theorem getD_mem_or_nil {β : Type} (l : List (List β)) (i : Nat) :
    l.getD i [] = [] ∨ l.getD i [] ∈ l := by
  by_cases h : i < l.length
  · right
    simp [List.getD, List.getElem?_eq_getElem h]
  · left
    simp [List.getD, List.getElem?_eq_none (Nat.le_of_not_lt h)]

theorem dedup_step_distinct (t : hash_table (List Nat)) (u : List Nat)
    (hcmp : t.compare = strcmp) (hd : buckets_distinct t) :
    buckets_distinct (dedup_step t u).1 := by
  unfold dedup_step
  split
  · exact hd
  · rename_i hnot
    intro bucket hb
    dsimp only at hb
    rw [hash_table_insert_elements] at hb
    rcases List.mem_or_eq_of_mem_set hb with hold | hnew
    · exact hd bucket hold
    · subst hnew
      have hnot2 : ¬ ∃ x ∈ t.elements.getD (GET_INDEX (t.hash u) t.size) [],
          t.compare x u = 0 := by
        rw [← hash_table_contains_loop_iff]
        exact hnot
      rw [List.pairwise_cons]
      refine ⟨?_, ?_⟩
      · intro x hx hux
        apply hnot2
        refine ⟨x, hx, ?_⟩
        rw [hcmp]
        exact strcmp_symm_zero u x hux
      · rcases getD_mem_or_nil t.elements (GET_INDEX (t.hash u) t.size) with h | h
        · rw [h]; exact List.Pairwise.nil
        · exact hd _ h

theorem dedup_step_fields (t : hash_table (List Nat)) (u : List Nat) (hwf : hash_table_wf t) :
    hash_table_wf (dedup_step t u).1 ∧ (dedup_step t u).1.compare = t.compare := by
  unfold dedup_step
  split
  · exact ⟨hwf, rfl⟩
  · exact ⟨hash_table_insert_wf t u hwf, (hash_table_insert_fields t u).2.1⟩

theorem dedup_step_contains_self (t : hash_table (List Nat)) (u : List Nat)
    (hwf : hash_table_wf t) (hcmp : t.compare = strcmp) :
    hash_table_contains (dedup_step t u).1 u = true := by
  unfold dedup_step
  split
  · assumption
  · dsimp only
    rw [hash_table_contains_insert t u u hwf, if_pos rfl, hcmp]
    simp [strcmp_self]

theorem dedup_step_contains_mono (t : hash_table (List Nat)) (u v : List Nat)
    (hwf : hash_table_wf t) (h : hash_table_contains t v = true) :
    hash_table_contains (dedup_step t u).1 v = true := by
  unfold dedup_step
  split
  · exact h
  · dsimp only
    rw [hash_table_contains_insert t u v hwf]
    split <;> simp [h]

theorem dedup_run_invariant (urls : List (List Nat)) :
    ∀ t : hash_table (List Nat), hash_table_wf t → t.compare = strcmp → buckets_distinct t →
      buckets_distinct (dedup_run t urls).1 ∧ (dedup_run t urls).2.Nodup ∧
      (∀ v ∈ (dedup_run t urls).2, hash_table_contains t v = false) := by
  induction urls with
  | nil =>
    intro t _ _ hd
    exact ⟨hd, List.nodup_nil, by simp [dedup_run]⟩
  | cons url rest ih =>
    intro t hwf hcmp hd
    have hf := dedup_step_fields t url hwf
    have hrec := ih (dedup_step t url).1 hf.1 (hf.2.trans hcmp)
      (dedup_step_distinct t url hcmp hd)
    have hlater : ∀ v ∈ (dedup_run (dedup_step t url).1 rest).2,
        hash_table_contains t v = false := by
      intro v hv
      cases hc : hash_table_contains t v with
      | false => rfl
      | true =>
        have := dedup_step_contains_mono t url v hwf hc
        rw [hrec.2.2 v hv] at this
        exact absurd this (by decide)
    have hnotin : url ∉ (dedup_run (dedup_step t url).1 rest).2 := by
      intro hin
      have h1 := hrec.2.2 url hin
      rw [dedup_step_contains_self t url hwf hcmp] at h1
      exact absurd h1 (by decide)
    refine ⟨hrec.1, ?_, ?_⟩
    · show (if (dedup_step t url).2 then url :: (dedup_run (dedup_step t url).1 rest).2
        else (dedup_run (dedup_step t url).1 rest).2).Nodup
      split
      · exact List.nodup_cons.2 ⟨hnotin, hrec.2.1⟩
      · exact hrec.2.1
    · intro v hv
      have hv2 : v ∈ (if (dedup_step t url).2 then url :: (dedup_run (dedup_step t url).1 rest).2
        else (dedup_run (dedup_step t url).1 rest).2) := hv
      split at hv2
      · rename_i hpass
        rcases List.mem_cons.1 hv2 with hvu | hvr
        · subst hvu
          unfold dedup_step at hpass
          split at hpass
          · exact absurd hpass (by simp)
          · rename_i hnot
            simpa using hnot
        · exact hlater v hvr
      · exact hlater v hv2

/-- C1: on a table state with at least one bucket whose comparison function is `strcmp`,
`hash_table_insert` returns `true`, the bucket index `hash(u) mod size` is below `size`, the
bucket at that index becomes `u` followed by its former chain (all other fields and the
well-formedness are kept), and `hash_table_contains` then answers `true` for `u`; a freshly
created table answers `false` for every URL. -/
theorem hash_table_insert_contains (t : hash_table (List Nat)) (u : List Nat)
    (hwf : hash_table_wf t) (hcmp : t.compare = strcmp) :
    (hash_table_insert t u).2 = true ∧
    t.hash u % t.size < t.size ∧
    (hash_table_insert t u).1.elements.getD (t.hash u % t.size) [] =
      u :: t.elements.getD (t.hash u % t.size) [] ∧
    hash_table_wf (hash_table_insert t u).1 ∧
    hash_table_contains (hash_table_insert t u).1 u = true ∧
    (∀ (hash_fn : List Nat → Nat) (size : Int) (v : List Nat),
      hash_table_contains (hash_table_create strcmp hash_fn size) v = false) := by
  have hlt : GET_INDEX (t.hash u) t.size < t.size := GET_INDEX_lt _ _ hwf.1
  have hf := hash_table_insert_fields t u
  have hb : (hash_table_insert t u).1.elements.getD (GET_INDEX (t.hash u) t.size) [] =
      u :: t.elements.getD (GET_INDEX (t.hash u) t.size) [] := by
    rw [hash_table_insert_elements]
    exact getD_set_self _ _ _ _ (by rw [hwf.2]; exact hlt)
  refine ⟨hf.2.2.2, ?_, ?_, hash_table_insert_wf t u hwf, ?_, ?_⟩
  · unfold GET_INDEX at hlt
    exact hlt
  · unfold GET_INDEX at hb
    exact hb
  · unfold hash_table_contains
    dsimp only
    rw [hf.1, hf.2.1, hf.2.2.1, hb, hcmp]
    simp [hash_table_contains_loop, strcmp_self]
  · intro hash_fn size v
    exact hash_table_create_contains strcmp hash_fn size v

/-- Witness for C1: the crawler's own table and the URL `http://a.org/`. -/
theorem hash_table_insert_contains_witness :
    hash_table_wf crawler_table ∧ crawler_table.compare = strcmp ∧
    (hash_table_insert crawler_table (ascii "http://a.org/")).2 = true ∧
    crawler_table.hash (ascii "http://a.org/") % crawler_table.size < crawler_table.size ∧
    (hash_table_insert crawler_table (ascii "http://a.org/")).1.elements.getD
        (crawler_table.hash (ascii "http://a.org/") % crawler_table.size) [] =
      ascii "http://a.org/" :: crawler_table.elements.getD
        (crawler_table.hash (ascii "http://a.org/") % crawler_table.size) [] ∧
    hash_table_contains (hash_table_insert crawler_table (ascii "http://a.org/")).1
      (ascii "http://a.org/") = true :=
  have h := hash_table_insert_contains crawler_table (ascii "http://a.org/")
    (hash_table_create_wf _ _ _) rfl
  ⟨hash_table_create_wf _ _ _, rfl, h.1, h.2.1, h.2.2.1, h.2.2.2.2.1⟩

/-- Counterexample to C2 as stated: in the crawler's table that already holds
`http://a.org/`, inserting the same URL again returns `true` (not `false`) and the bucket,
which held the URL once, holds it twice afterwards. -/
theorem hash_table_insert_member_counterexample :
    hash_table_contains (hash_table_insert crawler_table (ascii "http://a.org/")).1
      (ascii "http://a.org/") = true ∧
    (hash_table_insert (hash_table_insert crawler_table (ascii "http://a.org/")).1
      (ascii "http://a.org/")).2 = true ∧
    (hash_table_insert crawler_table (ascii "http://a.org/")).1.elements.getD 378 [] =
      [ascii "http://a.org/"] ∧
    (hash_table_insert (hash_table_insert crawler_table (ascii "http://a.org/")).1
      (ascii "http://a.org/")).1.elements.getD 378 [] =
      [ascii "http://a.org/", ascii "http://a.org/"] := by
  set_option maxRecDepth 100000 in decide

/-- C2 (amended): `hash_table_insert` returns `true` and links `u` in front of its bucket
whether or not `u` is already a member, so `u` is a member afterwards; when `u` was already
a member, the answer of `hash_table_contains` is the same before and after for every URL
(the set of members is unchanged, although `u` is stored once more). -/
theorem hash_table_insert_always_true (t : hash_table (List Nat)) (u : List Nat)
    (hwf : hash_table_wf t) (hcmp : t.compare = strcmp) :
    (hash_table_insert t u).2 = true ∧
    (hash_table_insert t u).1.elements =
      t.elements.set (GET_INDEX (t.hash u) t.size)
        (u :: t.elements.getD (GET_INDEX (t.hash u) t.size) []) ∧
    hash_table_contains (hash_table_insert t u).1 u = true ∧
    (hash_table_contains t u = true →
      ∀ v, hash_table_contains (hash_table_insert t u).1 v = hash_table_contains t v) := by
  refine ⟨(hash_table_insert_fields t u).2.2.2, hash_table_insert_elements t u, ?_, ?_⟩
  · rw [hash_table_contains_insert t u u hwf, if_pos rfl, hcmp]
    simp [strcmp_self]
  · intro hmem v
    rw [hash_table_contains_insert t u v hwf]
    split
    · rename_i hidx
      by_cases hc : t.compare u v = 0
      · have hv : hash_table_contains t v = true := by
          unfold hash_table_contains at hmem ⊢
          dsimp only at hmem ⊢
          rw [← hidx]
          rw [hash_table_contains_loop_iff] at hmem ⊢
          obtain ⟨x, hx, hxu⟩ := hmem
          refine ⟨x, hx, ?_⟩
          rw [hcmp] at hxu hc ⊢
          exact strcmp_trans_zero x u v hxu hc
        simp [hc, hv]
      · simp [hc]
    · rfl

/-- Witness for C2 (amended): the crawler's table after `http://a.org/` was inserted, and
the same URL. -/
theorem hash_table_insert_always_true_witness :
    hash_table_wf (hash_table_insert crawler_table (ascii "http://a.org/")).1 ∧
    (hash_table_insert crawler_table (ascii "http://a.org/")).1.compare = strcmp ∧
    (hash_table_insert (hash_table_insert crawler_table (ascii "http://a.org/")).1
      (ascii "http://a.org/")).2 = true :=
  ⟨hash_table_insert_wf _ _ (hash_table_create_wf _ _ _),
   (hash_table_insert_fields _ _).2.1,
   (hash_table_insert_always_true (hash_table_insert crawler_table (ascii "http://a.org/")).1
      (ascii "http://a.org/") (hash_table_insert_wf _ _ (hash_table_create_wf _ _ _))
      (hash_table_insert_fields _ _).2.1).1⟩

/-- C3: starting from a freshly created table (any hash function, any requested size) and
handling any finite sequence of URLs by the worker's dedup step (`hash_table_contains`, then
`hash_table_insert` only when it answered `false`), the table reached has no bucket holding
two entries that compare equal, and no URL is in the sequence of URLs that passed the step
(were fetched) more than once. -/
theorem dedup_run_no_duplicates (hash_fn : List Nat → Nat) (size : Int)
    (urls : List (List Nat)) :
    (∀ bucket ∈ (dedup_run (hash_table_create strcmp hash_fn size) urls).1.elements,
      bucket.Pairwise (fun x y => strcmp x y ≠ 0)) ∧
    (dedup_run (hash_table_create strcmp hash_fn size) urls).2.Nodup := by
  have h := dedup_run_invariant urls (hash_table_create strcmp hash_fn size)
    (hash_table_create_wf _ _ _) rfl (buckets_distinct_create hash_fn size)
  exact ⟨h.1, h.2.1⟩

/-! ### Result Collection -/

theorem linked_list_select_loop_eq {α : Type} (chain : List α) :
    ∀ (steps k : Nat), k < chain.length →
      linked_list_select_loop chain steps k =
        if k + steps < chain.length then (0, node_ptr.node (k + steps))
        else (-1, node_ptr.null) := by
  intro steps
  induction steps with
  | zero =>
    intro k hk
    simp [linked_list_select_loop, hk]
  | succ m ih =>
    intro k hk
    unfold linked_list_select_loop
    by_cases h : k + 1 < chain.length
    · rw [if_pos h, ih (k + 1) h]
      have : k + 1 + m = k + (m + 1) := by omega
      rw [this]
    · rw [if_neg h, if_neg (by omega)]

theorem linked_list_select_n_min_1_pos {α σ : Type} (list : linked_list α σ) (p : node_ptr)
    (n : Int) (hn : 0 < n) :
    linked_list_select_n_min_1 list p n =
      if n ≤ (list.hd.length : Int) then (0, node_ptr.node (n.toNat - 1))
      else (-1, node_ptr.null) := by
  unfold linked_list_select_n_min_1
  rw [if_neg (by omega), if_neg (by omega)]
  cases hhd : list.hd with
  | nil =>
    have : ¬ n ≤ ((([] : List α).length : Nat) : Int) := by simp; omega
    rw [if_neg this]
  | cons x nxt =>
    dsimp only
    rw [linked_list_select_loop_eq (x :: nxt) (n.toNat - 1) 0 (by simp)]
    by_cases h : n ≤ (((x :: nxt).length : Nat) : Int)
    · rw [if_pos h, if_pos (by omega)]
      simp
    · rw [if_neg h, if_neg (by omega)]

theorem link_after_eq {α : Type} (val : α) :
    ∀ (chain : List α) (k : Nat), k < chain.length →
      link_after chain k val = chain.take (k + 1) ++ val :: chain.drop (k + 1) := by
  intro chain
  induction chain with
  | nil => intro k hk; simp at hk
  | cons x nxt ih =>
    intro k hk
    cases k with
    | zero => simp [link_after]
    | succ j =>
      have hj : j < nxt.length := by simpa using hk
      simp [link_after, ih j hj]

theorem unlink_after_eq {α : Type} :
    ∀ (chain : List α) (k : Nat), k < chain.length →
      unlink_after chain k = chain.take (k + 1) ++ chain.drop (k + 2) := by
  intro chain
  induction chain with
  | nil => intro k hk; simp at hk
  | cons x nxt ih =>
    intro k hk
    cases k with
    | zero => cases nxt <;> simp [unlink_after]
    | succ j =>
      have hj : j < nxt.length := by simpa using hk
      simp [unlink_after, ih j hj]

theorem linked_list_insert_n_ok {α σ : Type} (list : linked_list α σ) (val : α) (n : Int)
    (h0 : 0 ≤ n) (hn : n ≤ (list.hd.length : Int)) :
    linked_list_insert_n list val n =
      Except.ok ({ list with hd := list.hd.take n.toNat ++ val :: list.hd.drop n.toNat,
                             len := list.len + 1 }, list.len + 1) := by
  unfold linked_list_insert_n
  by_cases hz : n = 0
  · subst hz
    simp
  · rw [if_neg hz]
    have hpos : 0 < n := by omega
    dsimp only
    rw [linked_list_select_n_min_1_pos list _ n hpos, if_pos hn]
    have hk : n.toNat - 1 < list.hd.length := by omega
    have hk1 : n.toNat - 1 + 1 = n.toNat := by omega
    simp [link_after_eq val list.hd (n.toNat - 1) hk, hk1]

theorem linked_list_insert_n_fail {α σ : Type} (list : linked_list α σ) (val : α) (n : Int)
    (h : n < 0 ∨ (list.hd.length : Int) < n) :
    linked_list_insert_n list val n = Except.ok (list, -1) := by
  unfold linked_list_insert_n
  rw [if_neg (by omega)]
  dsimp only
  rcases h with hneg | hbig
  · have : linked_list_select_n_min_1 list node_ptr.uninit n = (-1, node_ptr.uninit) := by
      unfold linked_list_select_n_min_1
      rw [if_pos hneg]
    rw [this]
    simp
  · rw [linked_list_select_n_min_1_pos list _ n (by omega),
      if_neg (show ¬ n ≤ (list.hd.length : Int) by omega)]
    simp

theorem linked_list_delete_loop_eq {α σ : Type} (f : α → σ → σ) (chain : List α) (s : σ) :
    linked_list_delete_loop f chain s = chain.foldl (fun st v => f v st) s := by
  induction chain generalizing s with
  | nil => rfl
  | cons v nxt ih => simp [linked_list_delete_loop, ih]

theorem foldl_record_call {α : Type} (chain log : List α) :
    chain.foldl (fun st v => record_call v st) log = log ++ chain := by
  induction chain generalizing log with
  | nil => simp
  | cons v nxt ih =>
    rw [List.foldl_cons, ih]
    simp [record_call]

/-- C8: `linked_list_delete` changes the world exactly as applying the list's `val_teardown`
to the stored values one after another from head to tail does; with a recording
`val_teardown` the log gains exactly the stored values, each once, in head-to-tail order. -/
theorem linked_list_delete_spec {α σ : Type} (list : linked_list α σ) (s : σ) :
    linked_list_delete list s = list.hd.foldl (fun st v => list.val_teardown v st) s ∧
    (∀ (len : Int) (hd log : List α),
      linked_list_delete { len := len, hd := hd, val_teardown := record_call } log =
        log ++ hd) := by
  constructor
  · exact linked_list_delete_loop_eq _ _ _
  · intro len hd log
    unfold linked_list_delete
    rw [linked_list_delete_loop_eq, foldl_record_call]

theorem linked_list_get_n_in_range {α σ : Type} (list : linked_list α σ) (n : Int)
    (h0 : 0 ≤ n) (hn : n < (list.hd.length : Int)) :
    linked_list_get_n list n = Except.ok (list.hd[n.toNat]?) ∧
      ∃ v, list.hd[n.toNat]? = some v := by
  have hk : n.toNat < list.hd.length := by omega
  have hget : list.hd[n.toNat]? = some (list.hd[n.toNat]) := List.getElem?_eq_getElem hk
  refine ⟨?_, _, hget⟩
  unfold linked_list_get_n
  dsimp only
  rw [linked_list_select_n_min_1_pos list _ (n + 1) (by omega),
    if_pos (show n + 1 ≤ (list.hd.length : Int) by omega)]
  have hk1 : (n + 1).toNat - 1 = n.toNat := by omega
  simp [hk1, hget]

theorem linked_list_get_n_out_of_range {α σ : Type} (list : linked_list α σ) (n : Int)
    (h : n < -1 ∨ (list.hd.length : Int) ≤ n) :
    linked_list_get_n list n = Except.ok none := by
  unfold linked_list_get_n
  dsimp only
  rcases h with hneg | hbig
  · have : linked_list_select_n_min_1 list node_ptr.uninit (n + 1) = (-1, node_ptr.uninit) := by
      unfold linked_list_select_n_min_1
      rw [if_pos (by omega)]
    rw [this]
    simp
  · rw [linked_list_select_n_min_1_pos list _ (n + 1) (by omega),
      if_neg (show ¬ n + 1 ≤ (list.hd.length : Int) by omega)]
    simp

theorem linked_list_get_n_insert_n {α σ : Type} (list : linked_list α σ) (val : α) (n : Int)
    (h0 : 0 ≤ n) (hn : n ≤ (list.hd.length : Int)) :
    ∃ r, linked_list_insert_n list val n = Except.ok r ∧
      linked_list_get_n r.1 n = Except.ok (some val) := by
  refine ⟨_, linked_list_insert_n_ok list val n h0 hn, ?_⟩
  have hlen : n.toNat ≤ list.hd.length := by omega
  have h := linked_list_get_n_in_range
    ({ list with hd := list.hd.take n.toNat ++ val :: list.hd.drop n.toNat,
                 len := list.len + 1 } : linked_list α σ) n h0
    (by simp [List.length_take, List.length_drop]; omega)
  rw [h.1]
  dsimp only
  rw [List.getElem?_append_right (by simp [List.length_take, hlen])]
  simp [List.length_take, hlen]

/-- C6, the failing input: `linked_list_get_n(list, -1)` asks `linked_list_select_n_min_1`
for index `0`, which reports success without assigning `node`, and then dereferences the
unassigned pointer instead of returning `NULL`; this holds for every list. -/
theorem linked_list_get_n_minus_one {α σ : Type} (list : linked_list α σ) :
    linked_list_get_n list (-1) = Except.error Fault.uninit_deref := by
  unfold linked_list_get_n linked_list_select_n_min_1
  simp

theorem linked_list_remove_n_in_range {α σ : Type} (list : linked_list α σ) (n : Int) (s : σ)
    (h0 : 0 ≤ n) (hn : n < (list.hd.length : Int)) :
    ∃ v, list.hd[n.toNat]? = some v ∧
      linked_list_remove_n list n s =
        Except.ok ({ list with hd := list.hd.take n.toNat ++ list.hd.drop (n.toNat + 1),
                               len := list.len - 1 }, list.val_teardown v s, list.len - 1) := by
  obtain ⟨len, hd, td⟩ := list
  dsimp only at hn ⊢
  have hk : n.toNat < hd.length := by omega
  by_cases hz : n = 0
  · subst hz
    cases hd with
    | nil => simp at hk
    | cons x nxt => exact ⟨x, by simp, by simp [linked_list_remove_n]⟩
  · refine ⟨hd[n.toNat], List.getElem?_eq_getElem hk, ?_⟩
    unfold linked_list_remove_n
    rw [if_neg hz]
    dsimp only
    rw [linked_list_select_n_min_1_pos _ _ n (by omega),
      if_pos (show n ≤ (hd.length : Int) by omega)]
    have hk1 : n.toNat - 1 + 1 = n.toNat := by omega
    have hk2 : n.toNat - 1 + 2 = n.toNat + 1 := by omega
    have hget : hd[n.toNat]? = some (hd[n.toNat]) := List.getElem?_eq_getElem hk
    simp [hk1, hk2, hget, unlink_after_eq hd (n.toNat - 1) (by omega)]

theorem linked_list_remove_n_out_of_range {α σ : Type} (list : linked_list α σ) (n : Int)
    (s : σ) (h : n < 0 ∨ (list.hd.length : Int) < n) :
    linked_list_remove_n list n s = Except.ok (list, s, -1) := by
  unfold linked_list_remove_n
  rw [if_neg (by omega)]
  dsimp only
  rcases h with hneg | hbig
  · have : linked_list_select_n_min_1 list node_ptr.uninit n = (-1, node_ptr.uninit) := by
      unfold linked_list_select_n_min_1
      rw [if_pos hneg]
    rw [this]
    simp
  · rw [linked_list_select_n_min_1_pos list _ n (by omega),
      if_neg (show ¬ n ≤ (list.hd.length : Int) by omega)]
    simp

/-- C7, the failing inputs: `linked_list_remove_n(list, n)` with `n` equal to the number of
values dereferences `NULL` instead of returning `-1`, for every list: on the empty list
(`n = 0`, so also `linked_list_remove_first` on a list fresh from `linked_list_new`)
`tmp = list->hd` is `NULL` and `tmp->nxt` is read; on a non-empty list `tmp = nth_node->nxt`
is `NULL` and `tmp->val` is read. -/
theorem linked_list_remove_n_at_len {α σ : Type} (list : linked_list α σ) (s : σ) :
    linked_list_remove_n list (list.hd.length : Int) s = Except.error Fault.null_deref ∧
    linked_list_remove_first (linked_list_new list.val_teardown) s =
      Except.error Fault.null_deref := by
  refine ⟨?_, rfl⟩
  unfold linked_list_remove_n
  cases hhd : list.hd with
  | nil => simp
  | cons x nxt =>
    have hz : ¬ (((x :: nxt).length : Nat) : Int) = 0 := by simp; omega
    rw [if_neg hz]
    dsimp only
    rw [linked_list_select_n_min_1_pos list _ _ (by simp), hhd, if_pos (le_refl _)]
    simp

/-! ### Text Extractor -/

theorem char_at_of_drop_cons (s : List Nat) (i c : Nat) (r : List Nat)
    (h : s.drop i = c :: r) : char_at s i = some c ∧ s.drop (i + 1) = r := by
  have hi : i < s.length := by
    by_contra hge
    rw [List.drop_eq_nil_of_le (Nat.le_of_not_lt hge)] at h
    exact absurd h (by simp)
  have hc : s[i] = c := by
    have h1 := List.drop_eq_getElem_cons hi
    rw [h] at h1
    exact (List.cons.inj h1).1.symm
  constructor
  · unfold char_at
    rw [List.getElem?_append_left hi, List.getElem?_eq_getElem hi, hc]
  · have h1 : s.drop (i + 1) = (s.drop i).drop 1 := by rw [List.drop_drop, Nat.add_comm]
    rw [h1, h]
    rfl

theorem char_at_of_drop_nil (s : List Nat) (i : Nat) (hi : i ≤ s.length)
    (h : s.drop i = []) : char_at s i = some 0 := by
  have hlen : s.length ≤ i := by
    have := congrArg List.length h
    simp at this
    omega
  have : i = s.length := by omega
  subst this
  unfold char_at
  simp

theorem read_char_of_char_at (s : List Nat) (i c : Nat) (h : char_at s i = some c) :
    read_char s i = Except.ok c := by
  unfold read_char
  rw [h]

theorem length_of_drop_eq (s : List Nat) (i : Nat) (r : List Nat) (hi : i ≤ s.length)
    (h : s.drop i = r) : s.length = i + r.length := by
  have := congrArg List.length h
  simp at this
  omega

theorem int_incr_ok (i : Nat) (h : i < 2147483647) : int_incr i = Except.ok (i + 1) := by
  unfold int_incr
  rw [if_pos h]

theorem int_incr_max (i : Nat) (h : 2147483647 ≤ i) :
    int_incr i = Except.error Fault.signed_overflow := by
  unfold int_incr
  rw [if_neg (by omega)]

theorem lt_length_of_drop_cons (s : List Nat) (i c : Nat) (r : List Nat)
    (h : s.drop i = c :: r) : i < s.length := by
  by_contra hge
  rw [List.drop_eq_nil_of_le (Nat.le_of_not_lt hge)] at h
  exact absurd h (by simp)

theorem clear_whitespace_stay (s : List Nat) (i c : Nat) (h : char_at s i = some c)
    (h1 : c ≠ 32) (h2 : c ≠ 10) : clear_whitespace s i = Except.ok i := by
  unfold clear_whitespace clear_whitespace_loop
  rw [read_char_of_char_at s i c h]
  simp [h1, h2]

theorem skip_tag_loop_spec (s rest : List Nat) (hmax : s.length < 2147483647) :
    ∀ (body : List Nat) (i fuel : Nat), s.drop i = body ++ 62 :: rest → 62 ∉ body →
      body.length < fuel →
      skip_tag_loop s fuel i = Except.ok (i + body.length + 1) ∧
        s.drop (i + body.length + 1) = rest := by
  intro body
  induction body with
  | nil =>
    intro i fuel hd _ hf
    obtain ⟨hc, hr⟩ := char_at_of_drop_cons s i 62 rest (by simpa using hd)
    have hil := lt_length_of_drop_cons s i 62 rest (by simpa using hd)
    cases fuel with
    | zero => simp at hf
    | succ f =>
      unfold skip_tag_loop
      rw [read_char_of_char_at s i 62 hc, int_incr_ok i (by omega)]
      simp [hr]
  | cons b body ih =>
    intro i fuel hd hnot hf
    obtain ⟨hc, hr⟩ := char_at_of_drop_cons s i b (body ++ 62 :: rest) (by simpa using hd)
    have hil := lt_length_of_drop_cons s i b (body ++ 62 :: rest) (by simpa using hd)
    have hb : b ≠ 62 := by
      intro hb
      apply hnot
      simp [hb]
    cases fuel with
    | zero => simp at hf
    | succ f =>
      have hrec := ih (i + 1) f hr (fun hm => hnot (List.mem_cons_of_mem _ hm))
        (by simp at hf; omega)
      unfold skip_tag_loop
      rw [read_char_of_char_at s i b hc, int_incr_ok i (by omega)]
      simp only [hb, ne_eq, not_false_eq_true, if_true]
      have he : i + (b :: body).length + 1 = i + 1 + body.length + 1 := by simp; omega
      rw [he]
      exact hrec

theorem copy_text_loop_spec (s rest : List Nat) (hmax : s.length < 2147483647) :
    ∀ (t : List Nat) (i fuel : Nat) (buffer : List Nat), s.drop i = t ++ 60 :: rest →
      60 ∉ t → buffer.length + t.length < BUFSIZE → t.length < fuel →
      copy_text_loop s fuel i buffer = Except.ok (i + t.length, buffer ++ t) ∧
        s.drop (i + t.length) = 60 :: rest := by
  intro t
  induction t with
  | nil =>
    intro i fuel buffer hd _ hbuf hf
    obtain ⟨hc, _⟩ := char_at_of_drop_cons s i 60 rest (by simpa using hd)
    cases fuel with
    | zero => simp at hf
    | succ f =>
      unfold copy_text_loop
      rw [read_char_of_char_at s i 60 hc]
      have hb : buffer.length < BUFSIZE := by simpa using hbuf
      simp [hb]
      simpa using hd
  | cons b t ih =>
    intro i fuel buffer hd hnot hbuf hf
    obtain ⟨hc, hr⟩ := char_at_of_drop_cons s i b (t ++ 60 :: rest) (by simpa using hd)
    have hil := lt_length_of_drop_cons s i b (t ++ 60 :: rest) (by simpa using hd)
    have hb : b ≠ 60 := by
      intro hb
      apply hnot
      simp [hb]
    cases fuel with
    | zero => simp at hf
    | succ f =>
      have hlen : buffer.length < BUFSIZE := by simp at hbuf; omega
      have hrec := ih (i + 1) f (buffer ++ [b]) hr (fun hm => hnot (List.mem_cons_of_mem _ hm))
        (by simp at hbuf ⊢; omega) (by simp at hf; omega)
      unfold copy_text_loop
      rw [read_char_of_char_at s i b hc, int_incr_ok i (by omega)]
      simp only [hlen, hb, ne_eq, not_false_eq_true, if_true]
      have he : i + (b :: t).length = i + 1 + t.length := by simp; omega
      have hbt : buffer ++ b :: t = buffer ++ [b] ++ t := by simp
      rw [he, hbt]
      exact hrec

theorem find_text_loop_end (s : List Nat) (fuel i : Nat) (results : List (List Nat))
    (hi : i < 2147483647) (h : read_char s i = Except.ok 0) :
    find_text_loop s (fuel + 1) i results = Except.ok results := by
  unfold find_text_loop
  simp [h, int_incr_ok i hi, bind, Except.bind, pure, Except.pure]

theorem find_text_loop_adjacent (s : List Nat) (fuel i c i1 i2 : Nat)
    (results : List (List Nat)) (hi : i < 2147483647)
    (h : read_char s i = Except.ok c) (hc : c ≠ 0)
    (h1 : skip_tag_loop s (s.length + 2) (i + 1) = Except.ok i1)
    (h2 : clear_whitespace s i1 = Except.ok i2) (h3 : read_char s i2 = Except.ok 60) :
    find_text_loop s (fuel + 1) i results = find_text_loop s fuel i2 results := by
  conv => lhs; unfold find_text_loop
  simp [h, int_incr_ok i hi, hc, h1, h2, h3, bind, Except.bind, pure, Except.pure]

theorem find_text_loop_break (s : List Nat) (fuel i c i1 i2 c2 i3 : Nat)
    (results : List (List Nat)) (hi : i < 2147483647)
    (h : read_char s i = Except.ok c) (hc : c ≠ 0)
    (h1 : skip_tag_loop s (s.length + 2) (i + 1) = Except.ok i1)
    (h2 : clear_whitespace s i1 = Except.ok i2) (h3 : read_char s i2 = Except.ok c2)
    (hc2 : c2 ≠ 60) (h4 : clear_whitespace s i2 = Except.ok i3)
    (h5 : read_char s i3 = Except.ok 0) :
    find_text_loop s (fuel + 1) i results = Except.ok results := by
  unfold find_text_loop
  simp [h, int_incr_ok i hi, hc, h1, h2, h3, hc2, h4, h5, bind, Except.bind, pure, Except.pure]

theorem find_text_loop_segment (s : List Nat) (fuel i c i1 i2 c2 i3 c3 : Nat)
    (r : Nat × List Nat)
    (results : List (List Nat)) (hi : i < 2147483647)
    (h : read_char s i = Except.ok c) (hc : c ≠ 0)
    (h1 : skip_tag_loop s (s.length + 2) (i + 1) = Except.ok i1)
    (h2 : clear_whitespace s i1 = Except.ok i2) (h3 : read_char s i2 = Except.ok c2)
    (hc2 : c2 ≠ 60) (h4 : clear_whitespace s i2 = Except.ok i3)
    (h5 : read_char s i3 = Except.ok c3) (hc3 : c3 ≠ 0)
    (h6 : copy_text_loop s (s.length + 2) i3 [] = Except.ok r) :
    find_text_loop s (fuel + 1) i results =
      find_text_loop s fuel r.1 (results ++ [strcpy_buffer r.2]) := by
  conv => lhs; unfold find_text_loop
  simp [h, int_incr_ok i hi, hc, h1, h2, h3, hc2, h4, h5, hc3, h6, bind, Except.bind, pure, Except.pure]

theorem tags_nil : tags [] = [] := rfl

theorem tags_cons (b : List Nat) (bs : List (List Nat)) :
    tags (b :: bs) = 60 :: (b ++ 62 :: tags bs) := by
  simp [tags, tag]

theorem tags_length_cons (b : List Nat) (bs : List (List Nat)) :
    (tags (b :: bs)).length = b.length + 2 + (tags bs).length := by
  rw [tags_cons]
  simp
  omega

theorem tags_length_ge (bs : List (List Nat)) : 2 * bs.length ≤ (tags bs).length := by
  induction bs with
  | nil => simp [tags]
  | cons b bs ih =>
    rw [tags_length_cons]
    simp
    omega

theorem strcpy_buffer_of_nul_free (t : List Nat) (h : 0 ∉ t) : strcpy_buffer t = t := by
  unfold strcpy_buffer
  rw [List.takeWhile_eq_self_iff]
  intro b hb
  have : b ≠ 0 := fun h0 => h (h0 ▸ hb)
  simpa using this

/-- The main loop over adjacent tags that end the input: nothing is emitted. -/
theorem find_text_loop_tags (s : List Nat) (results : List (List Nat))
    (hmax : s.length < 2147483647) :
    ∀ (bodies : List (List Nat)) (i fuel : Nat), s.drop i = tags bodies →
      (∀ b ∈ bodies, 62 ∉ b) → i ≤ s.length → bodies.length < fuel →
      find_text_loop s fuel i results = Except.ok results := by
  intro bodies
  induction bodies with
  | nil =>
    intro i fuel hd _ hi hf
    cases fuel with
    | zero => simp at hf
    | succ f =>
      exact find_text_loop_end s f i results (by omega)
        (read_char_of_char_at s i 0 (char_at_of_drop_nil s i hi hd))
  | cons b bs ih =>
    intro i fuel hd hb hi hf
    cases fuel with
    | zero => simp at hf
    | succ f =>
      rw [tags_cons] at hd
      have hlen := length_of_drop_eq s i _ hi hd
      have hil : i < 2147483647 := by simp at hlen; omega
      obtain ⟨hc, hr⟩ := char_at_of_drop_cons s i 60 _ hd
      obtain ⟨hskip, hr1⟩ := skip_tag_loop_spec s (tags bs) hmax b (i + 1) (s.length + 2) hr
        (hb b (List.mem_cons_self _ _)) (by simp at hlen; omega)
      have hi1 : i + 1 + b.length + 1 ≤ s.length := by simp at hlen; omega
      cases bs with
      | nil =>
        have h0 := char_at_of_drop_nil s _ hi1 hr1
        exact find_text_loop_break s f i 60 _ _ 0 _ results hil (read_char_of_char_at s i 60 hc)
          (by decide) hskip (clear_whitespace_stay s _ 0 h0 (by decide) (by decide))
          (read_char_of_char_at s _ 0 h0) (by decide)
          (clear_whitespace_stay s _ 0 h0 (by decide) (by decide))
          (read_char_of_char_at s _ 0 h0)
      | cons b1 bs1 =>
        have hr2 := hr1
        rw [tags_cons] at hr2
        obtain ⟨hc1, _⟩ := char_at_of_drop_cons s _ 60 _ hr2
        rw [find_text_loop_adjacent s f i 60 _ _ results hil (read_char_of_char_at s i 60 hc)
          (by decide) hskip (clear_whitespace_stay s _ 60 hc1 (by decide) (by decide))
          (read_char_of_char_at s _ 60 hc1)]
        exact ih _ f hr1 (fun x hx => hb x (List.mem_cons_of_mem _ hx)) hi1
          (by simp at hf ⊢; omega)

/-- The main loop over one or more adjacent tags followed by a text run `c :: t` that the
next `'<'` ends: the run is emitted as one segment and the loop goes on at that `'<'`. -/
theorem find_text_loop_tags_text (s rest t : List Nat) (c : Nat) (results : List (List Nat))
    (hmax : s.length < 2147483647) (hc32 : c ≠ 32) (hc10 : c ≠ 10) (hlt : 60 ∉ c :: t) (hnul : 0 ∉ c :: t)
    (hbuf : (c :: t).length < BUFSIZE) :
    ∀ (bodies : List (List Nat)) (b : List Nat) (i fuel : Nat),
      s.drop i = tags (b :: bodies) ++ (c :: t) ++ 60 :: rest →
      (∀ x ∈ b :: bodies, 62 ∉ x) → i ≤ s.length → bodies.length < fuel →
      find_text_loop s fuel i results =
          find_text_loop s (fuel - (bodies.length + 1))
            (i + (tags (b :: bodies)).length + (c :: t).length) (results ++ [c :: t]) ∧
        s.drop (i + (tags (b :: bodies)).length + (c :: t).length) = 60 :: rest := by
  have hc60 : c ≠ 60 := fun h => hlt (by simp [h])
  have hc0 : c ≠ 0 := fun h => hnul (by simp [h])
  intro bodies
  induction bodies with
  | nil =>
    intro b i fuel hd hb hi hf
    cases fuel with
    | zero => simp at hf
    | succ f =>
      rw [tags_cons, tags_nil] at hd
      have hd1 : s.drop i = 60 :: (b ++ 62 :: (c :: t ++ 60 :: rest)) := by simpa using hd
      have hlen := length_of_drop_eq s i _ hi hd1
      have hil : i < 2147483647 := by simp at hlen; omega
      obtain ⟨hch, hr⟩ := char_at_of_drop_cons s i 60 _ hd1
      obtain ⟨hskip, hr1⟩ := skip_tag_loop_spec s _ hmax b (i + 1) (s.length + 2) hr
        (hb b (List.mem_cons_self _ _)) (by simp at hlen; omega)
      obtain ⟨hc1, _⟩ := char_at_of_drop_cons s _ c _ hr1
      obtain ⟨hcopy, hr2⟩ := copy_text_loop_spec s rest hmax (c :: t) (i + 1 + b.length + 1)
        (s.length + 2) [] hr1 hlt (by simpa using hbuf) (by simp at hlen ⊢; omega)
      have hseg := find_text_loop_segment s f i 60 _ _ c _ c _ results hil
        (read_char_of_char_at s i 60 hch) (by decide) hskip
        (clear_whitespace_stay s _ c hc1 hc32 hc10) (read_char_of_char_at s _ c hc1) hc60
        (clear_whitespace_stay s _ c hc1 hc32 hc10) (read_char_of_char_at s _ c hc1) hc0 hcopy
      have hidx : i + (tags [b]).length + (c :: t).length =
          i + 1 + b.length + 1 + (c :: t).length := by
        rw [tags_length_cons, tags_nil]; simp; omega
      rw [hidx]
      refine ⟨?_, hr2⟩
      rw [hseg]
      simp [strcpy_buffer_of_nul_free (c :: t) hnul]
  | cons b1 bs ih =>
    intro b i fuel hd hb hi hf
    cases fuel with
    | zero => simp at hf
    | succ f =>
      rw [tags_cons] at hd
      have hd1 : s.drop i =
          60 :: (b ++ 62 :: (tags (b1 :: bs) ++ (c :: t) ++ 60 :: rest)) := by simpa using hd
      have hlen := length_of_drop_eq s i _ hi hd1
      have hil : i < 2147483647 := by simp at hlen; omega
      obtain ⟨hch, hr⟩ := char_at_of_drop_cons s i 60 _ hd1
      obtain ⟨hskip, hr1⟩ := skip_tag_loop_spec s _ hmax b (i + 1) (s.length + 2) hr
        (hb b (List.mem_cons_self _ _)) (by simp at hlen; omega)
      have hi1 : i + 1 + b.length + 1 ≤ s.length := by simp at hlen; omega
      have hr2 : s.drop (i + 1 + b.length + 1) =
          60 :: (b1 ++ 62 :: tags bs ++ (c :: t) ++ 60 :: rest) := by
        rw [hr1, tags_cons]; simp
      obtain ⟨hc1, _⟩ := char_at_of_drop_cons s _ 60 _ hr2
      have hrec := ih b1 (i + 1 + b.length + 1) f hr1
        (fun x hx => hb x (List.mem_cons_of_mem _ hx)) hi1 (by simp at hf ⊢; omega)
      have hidx : i + (tags (b :: b1 :: bs)).length + (c :: t).length =
          i + 1 + b.length + 1 + (tags (b1 :: bs)).length + (c :: t).length := by
        rw [tags_length_cons b]; omega
      have hfuel : f + 1 - ((b1 :: bs).length + 1) = f - (bs.length + 1) := by simp
      rw [hidx, hfuel, find_text_loop_adjacent s f i 60 _ _ results hil
        (read_char_of_char_at s i 60 hch) (by decide) hskip
        (clear_whitespace_stay s _ 60 hc1 (by decide) (by decide))
        (read_char_of_char_at s _ 60 hc1)]
      exact hrec

theorem find_text_loop_skip_fault (s : List Nat) (fuel i c : Nat) (e : Fault)
    (results : List (List Nat)) (hi : i < 2147483647)
    (h : read_char s i = Except.ok c) (hc : c ≠ 0)
    (h1 : skip_tag_loop s (s.length + 2) (i + 1) = Except.error e) :
    find_text_loop s (fuel + 1) i results = Except.error e := by
  unfold find_text_loop
  simp [h, int_incr_ok i hi, hc, h1, bind, Except.bind, pure, Except.pure]

theorem find_text_loop_copy_fault (s : List Nat) (fuel i c i1 i2 c2 i3 c3 : Nat) (e : Fault)
    (results : List (List Nat)) (hi : i < 2147483647)
    (h : read_char s i = Except.ok c) (hc : c ≠ 0)
    (h1 : skip_tag_loop s (s.length + 2) (i + 1) = Except.ok i1)
    (h2 : clear_whitespace s i1 = Except.ok i2) (h3 : read_char s i2 = Except.ok c2)
    (hc2 : c2 ≠ 60) (h4 : clear_whitespace s i2 = Except.ok i3)
    (h5 : read_char s i3 = Except.ok c3) (hc3 : c3 ≠ 0)
    (h6 : copy_text_loop s (s.length + 2) i3 [] = Except.error e) :
    find_text_loop s (fuel + 1) i results = Except.error e := by
  unfold find_text_loop
  simp [h, int_incr_ok i hi, hc, h1, h2, h3, hc2, h4, h5, hc3, h6, bind, Except.bind, pure,
    Except.pure]

theorem tags_append (a b : List (List Nat)) : tags (a ++ b) = tags a ++ tags b := by
  simp [tags]

theorem tags_replicate_succ (n : Nat) :
    tags (List.replicate (n + 1) []) = tags (List.replicate n []) ++ [60, 62] := by
  rw [List.replicate_succ', tags_append]
  rfl

theorem tags_replicate_length (n : Nat) : (tags (List.replicate n [])).length = 2 * n := by
  induction n with
  | zero => rfl
  | succ m ih =>
    rw [tags_replicate_succ, List.length_append, ih]
    simp
    omega

theorem tags_append_lt_head (bs : List (List Nat)) (rest : List Nat) :
    ∃ r, tags bs ++ 60 :: rest = 60 :: r := by
  cases bs with
  | nil => exact ⟨rest, rfl⟩
  | cons b bs => exact ⟨_, by rw [tags_cons]; rfl⟩

/-- The main loop over `n` adjacent empty tags `<>` that a further `'<'` follows, the index
staying below `INT_MAX`: nothing is emitted and the loop goes on at that `'<'`. -/
theorem find_text_loop_empty_tags (s rest : List Nat) (results : List (List Nat)) :
    ∀ (n i fuel : Nat), s.drop i = tags (List.replicate n []) ++ 60 :: rest →
      i + 2 * n < 2147483647 → n ≤ fuel →
      find_text_loop s fuel i results = find_text_loop s (fuel - n) (i + 2 * n) results ∧
        s.drop (i + 2 * n) = 60 :: rest := by
  intro n
  induction n with
  | zero =>
    intro i fuel hd _ _
    exact ⟨rfl, by simpa [tags] using hd⟩
  | succ m ih =>
    intro i fuel hd hidx hf
    cases fuel with
    | zero => simp at hf
    | succ f =>
      have hd1 : s.drop i = 60 :: 62 :: (tags (List.replicate m []) ++ 60 :: rest) := by
        rw [hd, List.replicate_succ, tags_cons]
        rfl
      obtain ⟨hch, hr⟩ := char_at_of_drop_cons s i 60 _ hd1
      obtain ⟨hch1, hr1⟩ := char_at_of_drop_cons s (i + 1) 62 _ hr
      obtain ⟨r, hr2⟩ := tags_append_lt_head (List.replicate m []) rest
      rw [hr2] at hr1
      obtain ⟨hch2, _⟩ := char_at_of_drop_cons s (i + 1 + 1) 60 _ hr1
      have hskip : skip_tag_loop s (s.length + 2) (i + 1) = Except.ok (i + 1 + 1) := by
        unfold skip_tag_loop
        rw [read_char_of_char_at s (i + 1) 62 hch1, int_incr_ok (i + 1) (by omega)]
        simp
      have hstep := find_text_loop_adjacent s f i 60 _ _ results (by omega)
        (read_char_of_char_at s i 60 hch) (by decide) hskip
        (clear_whitespace_stay s _ 60 hch2 (by decide) (by decide))
        (read_char_of_char_at s _ 60 hch2)
      rw [← hr2] at hr1
      obtain ⟨hrec, hdrop⟩ := ih (i + 1 + 1) f hr1 (by omega) (by omega)
      have hi2 : i + 2 * (m + 1) = i + 1 + 1 + 2 * m := by omega
      have hf2 : f + 1 - (m + 1) = f - m := by omega
      rw [hi2, hf2, hstep]
      exact ⟨hrec, hdrop⟩

/-- An input that begins with `2^30 - 1` empty tags `<>` and one more tag `<>`: the `'>'` of
that tag stands at index `INT_MAX`, and the `i++` of the tag-skipping loop that reads it
leaves the `int` range. -/
theorem find_text_int_overflow (n : Nat) (rest : List Nat) (hn : 2 * n + 1 = 2147483647) :
    find_text (tags (List.replicate n []) ++ 60 :: 62 :: rest) =
      Except.error Fault.signed_overflow := by
  generalize hs : tags (List.replicate n []) ++ 60 :: 62 :: rest = s
  have hd : s.drop 0 = tags (List.replicate n []) ++ 60 :: (62 :: rest) := by rw [← hs]; rfl
  have hlen : s.length = 2 * n + 2 + rest.length := by
    rw [← hs, List.length_append, tags_replicate_length]
    simp
    omega
  obtain ⟨r, hr⟩ := tags_append_lt_head (List.replicate n []) (62 :: rest)
  obtain ⟨hch0, _⟩ := char_at_of_drop_cons s 0 60 r (by rw [hd, hr])
  obtain ⟨hloop, hdrop⟩ := find_text_loop_empty_tags s (62 :: rest) [] n 0 (s.length + 2) hd
    (by omega) (by omega)
  obtain ⟨hch1, hr1⟩ := char_at_of_drop_cons s (0 + 2 * n) 60 _ hdrop
  obtain ⟨hch2, _⟩ := char_at_of_drop_cons s (0 + 2 * n + 1) 62 _ hr1
  have hskip : skip_tag_loop s (s.length + 2) (0 + 2 * n + 1) =
      Except.error Fault.signed_overflow := by
    unfold skip_tag_loop
    rw [read_char_of_char_at s _ 62 hch2, int_incr_max _ (by omega)]
  have hfuel : s.length + 2 - n = (s.length + 1 - n) + 1 := by omega
  unfold find_text
  rw [clear_whitespace_stay s 0 60 hch0 (by decide) (by decide)]
  simp only [bind, Except.bind]
  rw [hloop, hfuel]
  exact find_text_loop_skip_fault s _ _ 60 _ [] (by omega)
    (read_char_of_char_at s _ 60 hch1) (by decide) hskip

theorem find_text_int_overflow_tags (n : Nat) (rest : List Nat) (hn : 2 * n = 2147483648) :
    find_text (tags (List.replicate n []) ++ rest) = Except.error Fault.signed_overflow := by
  cases n with
  | zero => simp at hn
  | succ m =>
    rw [tags_replicate_succ, List.append_assoc]
    exact find_text_int_overflow m rest (by omega)

theorem page_replicate_empty (n : Nat) :
    page (List.replicate n (([] : List Nat), ([] : List Nat))) = tags (List.replicate n []) := by
  induction n with
  | zero => rfl
  | succ m ih =>
    rw [List.replicate_succ, List.replicate_succ]
    simp only [page, tags, List.map_cons, List.flatten_cons] at ih ⊢
    rw [ih]
    rfl

theorem last_text_of_all_empty (items : List (List Nat × List Nat))
    (h : ∀ it ∈ items, it.2 = []) : last_text items = [] := by
  unfold last_text
  cases hl : items.getLast? with
  | none => rfl
  | some it => exact h it (List.mem_of_getLast?_eq_some hl)

theorem page_wf_replicate_empty (n : Nat) :
    page_wf [] (List.replicate n (([] : List Nat), ([] : List Nat))) := by
  refine ⟨rfl, ?_, ?_⟩
  · intro it hit
    rw [List.eq_of_mem_replicate hit]
    decide
  · rw [last_text_of_all_empty _ (fun it hit => by rw [List.eq_of_mem_replicate hit])]
    rfl

theorem empty_tags_no_xyz (n : Nat) :
    ¬ ascii "xyz" <:+: page (List.replicate n (([] : List Nat), ([] : List Nat))) := by
  intro h
  have hx : 120 ∈ ascii "xyz" := by decide
  have hin := h.subset hx
  rw [page_replicate_empty] at hin
  have hall : ∀ (k : Nat), ∀ c ∈ tags (List.replicate k []), c = 60 ∨ c = 62 := by
    intro k
    induction k with
    | zero => intro c hc; simp [tags] at hc
    | succ m ih =>
      intro c hc
      rw [tags_replicate_succ, List.mem_append] at hc
      rcases hc with hc | hc
      · exact ih c hc
      · simpa using hc
  rcases hall n 120 hin with h1 | h1 <;> simp at h1

/-- Counterexample to C9 as stated: `2^30` empty tags `<>`, the text run `x` and one tag `<>`
make an input of the shape the claim describes, and `find_text` does not yield the segment
`x` for it: the `'>'` of the last of the leading tags stands at index `INT_MAX`, where the
`i++` of the tag-skipping loop leaves the `int` range. -/
theorem find_text_single_segment_counterexample :
    find_text (tags (List.replicate 1073741824 []) ++ ascii "x" ++ tags [[]]) =
      Except.error Fault.signed_overflow := by
  rw [List.append_assoc]
  exact find_text_int_overflow_tags 1073741824 _ (by decide)

/-- C9 (amended): for an input shorter than `2^31 - 1` bytes made of one or more tags, one
text run `t` and one or more tags, where no tag body holds `'>'` and `t` is non-empty, shorter
than `BUFSIZE`, free of `'<'` (and, being part of a C string, of NUL) and does not start with
a space or a newline, `find_text` returns exactly the one segment `t`; so it does on
`<p>Hello world</p>` and `<a><b>x</b></a>`. -/
theorem find_text_single_segment (bodies1 bodies2 : List (List Nat)) (t : List Nat)
    (h1 : bodies1 ≠ []) (h2 : bodies2 ≠ [])
    (hb1 : ∀ b ∈ bodies1, 62 ∉ b) (hb2 : ∀ b ∈ bodies2, 62 ∉ b)
    (ht : t ≠ []) (hbuf : t.length < BUFSIZE) (hlt : 60 ∉ t) (hnul : 0 ∉ t)
    (hws : t.head? ≠ some 32 ∧ t.head? ≠ some 10)
    (hmax : (tags bodies1 ++ t ++ tags bodies2).length < 2147483647) :
    find_text (tags bodies1 ++ t ++ tags bodies2) = Except.ok [t] ∧
    find_text (ascii "<p>Hello world</p>") = Except.ok [ascii "Hello world"] ∧
    find_text (ascii "<a><b>x</b></a>") = Except.ok [ascii "x"] := by
  refine ⟨?_, by decide, by decide⟩
  cases bodies1 with
  | nil => exact absurd rfl h1
  | cons b bs =>
    cases bodies2 with
    | nil => exact absurd rfl h2
    | cons b2 bs2 =>
      cases t with
      | nil => exact absurd rfl ht
      | cons c t =>
        have hc32 : c ≠ 32 := fun h => hws.1 (by simp [h])
        have hc10 : c ≠ 10 := fun h => hws.2 (by simp [h])
        generalize hs : tags (b :: bs) ++ (c :: t) ++ tags (b2 :: bs2) = s at hmax
        have hd : s.drop 0 = tags (b :: bs) ++ (c :: t) ++ 60 :: (b2 ++ 62 :: tags bs2) := by
          rw [← hs, tags_cons b2]; rfl
        have hd0 : s.drop 0 = 60 :: (b ++ 62 :: tags bs ++ (c :: t) ++ tags (b2 :: bs2)) := by
          rw [← hs, tags_cons b]; simp
        have hlen : s.length =
            (tags (b :: bs)).length + (c :: t).length + (tags (b2 :: bs2)).length := by
          rw [← hs]; simp only [List.length_append]
        have hg1 := tags_length_ge (b :: bs)
        have hg2 := tags_length_ge (b2 :: bs2)
        have hl1 : (b :: bs).length = bs.length + 1 := rfl
        have hl2 : (b2 :: bs2).length = bs2.length + 1 := rfl
        obtain ⟨hch, _⟩ := char_at_of_drop_cons s 0 60 _ hd0
        obtain ⟨hstep, hrest⟩ := find_text_loop_tags_text s _ t c [] hmax hc32 hc10 hlt hnul hbuf
          bs b 0 (s.length + 2) hd hb1 (Nat.zero_le _) (by omega)
        have hfuel : (b2 :: bs2).length < s.length + 2 - (bs.length + 1) := by omega
        have hfin := find_text_loop_tags s ([] ++ [c :: t]) hmax (b2 :: bs2)
          (0 + (tags (b :: bs)).length + (c :: t).length)
          (s.length + 2 - (bs.length + 1))
          (by rw [hrest, tags_cons]) hb2 (by omega) hfuel
        unfold find_text
        rw [clear_whitespace_stay s 0 60 hch (by decide) (by decide)]
        simp only [bind, Except.bind]
        rw [hstep, hfin]
        rfl

/-- Witness for C9 (amended): `<p>Hello world</p>`. -/
theorem find_text_single_segment_witness :
    find_text (tags [ascii "p"] ++ ascii "Hello world" ++ tags [ascii "/p"]) =
      Except.ok [ascii "Hello world"] :=
  (find_text_single_segment [ascii "p"] [ascii "/p"] (ascii "Hello world")
    (by decide) (by decide) (by decide) (by decide) (by decide) (by decide) (by decide)
    (by decide) (by decide) (by decide)).1

/-- Counterexample to C10 as stated: the input made of `2^30` adjacent empty tags `<>`
(`2^31` bytes) consists only of adjacent tags whose bodies hold no `'>'`, and `find_text`
does not yield an empty sequence for it: the `'>'` of the last tag stands at index `INT_MAX`,
where the `i++` of the tag-skipping loop leaves the `int` range. -/
theorem find_text_adjacent_tags_counterexample :
    find_text (tags (List.replicate 1073741824 [])) = Except.error Fault.signed_overflow := by
  have h := find_text_int_overflow_tags 1073741824 [] (by decide)
  rw [List.append_nil] at h
  exact h

/-- C10 (amended): on the empty input, and on every input shorter than `2^31 - 1` bytes made
only of adjacent tags whose bodies hold no `'>'` (such as `<a></a>`), `find_text` returns no
segment. -/
theorem find_text_adjacent_tags (bodies : List (List Nat)) (hb : ∀ b ∈ bodies, 62 ∉ b)
    (hmax : (tags bodies).length < 2147483647) :
    find_text [] = Except.ok [] ∧ find_text (tags bodies) = Except.ok [] ∧
    find_text (ascii "<a></a>") = Except.ok [] := by
  refine ⟨by decide, ?_, by decide⟩
  have hc : ∃ c, char_at (tags bodies) 0 = some c ∧ c ≠ 32 ∧ c ≠ 10 := by
    cases bodies with
    | nil => exact ⟨0, by decide, by decide, by decide⟩
    | cons b bs =>
      refine ⟨60, ?_, by decide, by decide⟩
      rw [tags_cons]
      simp [char_at]
  obtain ⟨c, hc0, hc32, hc10⟩ := hc
  have hfin := find_text_loop_tags (tags bodies) [] hmax bodies 0 ((tags bodies).length + 2) rfl hb
    (Nat.zero_le _) (by have := tags_length_ge bodies; omega)
  unfold find_text
  rw [clear_whitespace_stay _ 0 c hc0 hc32 hc10]
  simp only [bind, Except.bind]
  exact hfin

/-- Witness for C10 (amended): `<a></a>`. -/
theorem find_text_adjacent_tags_witness :
    find_text (tags [ascii "a", ascii "/a"]) = Except.ok [] :=
  (find_text_adjacent_tags [ascii "a", ascii "/a"] (by decide) (by decide)).2.1

/-! ### Substring search -/

theorem starts_with_iff (haystack needle : List Nat) :
    starts_with haystack needle = true ↔ needle <+: haystack := by
  induction needle generalizing haystack with
  | nil => simp [starts_with]
  | cons n needle ih =>
    cases haystack with
    | nil => simp [starts_with]
    | cons h haystack =>
      by_cases hn : h = n
      · subst hn
        simp [starts_with, ih, List.cons_prefix_cons]
      · have hn2 : ¬ n = h := fun e => hn e.symm
        simp [starts_with, hn, hn2, List.cons_prefix_cons]

theorem strstr_isSome_iff (haystack needle : List Nat) :
    (strstr haystack needle).isSome = true ↔ needle <:+: haystack := by
  induction haystack with
  | nil =>
    unfold strstr
    by_cases h : starts_with [] needle = true
    · have hp := (starts_with_iff [] needle).1 h
      simp [h, hp.isInfix]
    · have hp : ¬ needle <+: [] := fun hp => h ((starts_with_iff [] needle).2 hp)
      have hi : ¬ needle <:+: [] := by
        intro hi
        apply hp
        rw [List.infix_nil] at hi
        rw [hi]
      simp [h, hi]
  | cons c haystack ih =>
    unfold strstr
    rw [List.infix_cons_iff]
    by_cases h : starts_with (c :: haystack) needle = true
    · simp [h, (starts_with_iff _ _).1 h]
    · have hp : ¬ needle <+: c :: haystack := fun hp => h ((starts_with_iff _ _).2 hp)
      simp only [h, Bool.false_eq_true, if_false, Option.isSome_map', ih, hp, false_or]

theorem find_in_text_iff (expr : List Nat) (segments : List (List Nat)) :
    find_in_text expr segments = true ↔ ∃ seg ∈ segments, expr <:+: seg := by
  induction segments with
  | nil => simp [find_in_text]
  | cons text next ih =>
    unfold find_in_text
    by_cases h : (strstr text expr).isSome = true
    · simp [h, (strstr_isSome_iff text expr).1 h]
    · have hi : ¬ expr <:+: text := fun hi => h ((strstr_isSome_iff text expr).2 hi)
      simp [h, hi, ih]

/-- C14: `find_in_text(e, S)` is `true` exactly when some segment of `S` contains `e` as a
contiguous run of equal bytes; on the empty sequence it is `false` whatever `e` is. -/
theorem find_in_text_spec (e : List Nat) (S : List (List Nat)) :
    (find_in_text e S = true ↔ ∃ seg ∈ S, ∃ before after, seg = before ++ e ++ after) ∧
    find_in_text e [] = false := by
  refine ⟨?_, rfl⟩
  rw [find_in_text_iff]
  constructor
  · rintro ⟨seg, hs, before, after, h⟩
    exact ⟨seg, hs, before, after, h.symm⟩
  · rintro ⟨seg, hs, before, after, h⟩
    exact ⟨seg, hs, before, after, h.symm⟩

/-! ### Backoff -/

theorem exponential_backoff_eq (d : Int) (h0 : 0 < d) (h1 : 2 * d ≤ INT_MAX) :
    exponential_backoff d = Except.ok (if 2 * d ≤ MAX_DELAY then (2 * d).toNat else 0) := by
  unfold exponential_backoff
  unfold INT_MAX at h1
  have hnot : ¬ (d * 2 > INT_MAX ∨ d * 2 < INT_MIN) := by
    unfold INT_MAX INT_MIN
    omega
  rw [if_neg hnot]
  dsimp only
  by_cases hm : d * 2 > MAX_DELAY
  · rw [if_pos hm, if_neg (by omega)]
  · rw [if_neg hm, if_pos (by omega)]
    congr 1
    omega

theorem poll_empty_frontier_mono (fuel : Nat) :
    ∀ (delay : Nat) (l : List Nat), poll_empty_frontier fuel delay = Except.ok l →
      ∀ extra, poll_empty_frontier (fuel + extra) delay = Except.ok l := by
  induction fuel with
  | zero =>
    intro delay l h
    simp [poll_empty_frontier] at h
  | succ f ih =>
    intro delay l h extra
    have he : f + 1 + extra = (f + extra) + 1 := by omega
    rw [he]
    unfold poll_empty_frontier at h ⊢
    cases hb : exponential_backoff (delay : Int) with
    | error e => rw [hb] at h; simp at h
    | ok next =>
      rw [hb] at h
      dsimp only at h ⊢
      by_cases hz : next = 0
      · rw [if_pos hz] at h ⊢
        exact h
      · rw [if_neg hz] at h ⊢
        cases hr : poll_empty_frontier f next with
        | error e => rw [hr] at h; simp at h
        | ok rest =>
          rw [hr] at h
          rw [ih next rest hr extra]
          exact h

/-- C17: for `0 < d <= 5,000,000`, `exponential_backoff(d)` returns `2*d` when `2*d` does not
exceed `MAX_DELAY` and the sentinel `0` when it does; so every non-zero value it returns is
at most 5,000,000 and greater than `d`. -/
theorem exponential_backoff_spec (d : Int) (h0 : 0 < d) (h1 : d ≤ 5000000) :
    exponential_backoff d = Except.ok (if 2 * d ≤ 5000000 then (2 * d).toNat else 0) ∧
    (∀ r : Nat, exponential_backoff d = Except.ok r → r ≠ 0 → (r : Int) ≤ 5000000 ∧ d < r) := by
  have h := exponential_backoff_eq d h0 (by unfold INT_MAX; omega)
  unfold MAX_DELAY at h
  refine ⟨h, ?_⟩
  intro r hr hne
  rw [h] at hr
  by_cases hm : 2 * d ≤ 5000000
  · rw [if_pos hm] at hr
    have : (2 * d).toNat = r := Except.ok.inj hr
    omega
  · rw [if_neg hm] at hr
    exact absurd (Except.ok.inj hr).symm hne

/-- Witness for C17: the delay 1,024,000. -/
theorem exponential_backoff_spec_witness :
    exponential_backoff 1024000 = Except.ok 2048000 :=
  (exponential_backoff_spec 1024000 (by decide) (by decide)).1

/-- C18: a worker polling an always-empty frontier from delay 1000 hands
`exponential_backoff` the 13 delays 1000, 2000, ..., 4,096,000 and then leaves its loop,
whatever fuel beyond 13 the loop is given; the first 12 applications return the doubled
delay and the 13th, on 4,096,000, returns the sentinel `0`. -/
theorem poll_empty_frontier_thirteen :
    (∀ extra, poll_empty_frontier (13 + extra) 1000 =
      Except.ok [1000, 2000, 4000, 8000, 16000, 32000, 64000, 128000, 256000, 512000,
        1024000, 2048000, 4096000]) ∧
    [1000, 2000, 4000, 8000, 16000, 32000, 64000, 128000, 256000, 512000,
        1024000, 2048000, 4096000].length = 13 ∧
    (∀ k : Fin 12, exponential_backoff (1000 * 2 ^ k.val) = Except.ok (1000 * 2 ^ (k.val + 1))) ∧
    (∀ k : Fin 13, [1000, 2000, 4000, 8000, 16000, 32000, 64000, 128000, 256000, 512000,
        1024000, 2048000, 4096000].get? k.val = some (1000 * 2 ^ k.val)) ∧
    exponential_backoff 4096000 = Except.ok 0 := by
  refine ⟨?_, rfl, by decide, by decide, by decide⟩
  exact poll_empty_frontier_mono 13 1000 _ (by decide)

/-- Counterexample to C19 as stated: the delay 3,000,000 is positive and below 5,000,000, the
policy in the specification's words gives 6,000,000, and `exponential_backoff` returns the
sentinel `0`. -/
theorem exponential_backoff_counterexample :
    (0 : Int) < 3000000 ∧ (3000000 : Int) < 5000000 ∧
    backoff_policy_spec 3000000 = 6000000 ∧
    exponential_backoff 3000000 = Except.ok 0 := by
  decide

/-- C19 (amended): for every delay `d > 0` whose double fits an `int`,
`exponential_backoff(d)` returns `2*d` whenever `2*d <= 5,000,000` and the sentinel `0`
whenever `2*d > 5,000,000`; it agrees with the policy in the specification's words when
`d <= 2,500,000` and when `d >= 5,000,000`. -/
theorem exponential_backoff_threshold (d : Int) (h0 : 0 < d) (h1 : 2 * d ≤ INT_MAX) :
    (2 * d ≤ 5000000 → exponential_backoff d = Except.ok (2 * d).toNat) ∧
    (5000000 < 2 * d → exponential_backoff d = Except.ok 0) ∧
    (d ≤ 2500000 ∨ 5000000 ≤ d →
      exponential_backoff d = Except.ok (backoff_policy_spec d).toNat) := by
  have h := exponential_backoff_eq d h0 h1
  unfold MAX_DELAY at h
  refine ⟨?_, ?_, ?_⟩
  · intro hm
    rw [h, if_pos hm]
  · intro hm
    rw [h, if_neg (by omega)]
  · intro hm
    unfold backoff_policy_spec MAX_DELAY
    rcases hm with hm | hm
    · rw [h, if_pos (by omega), if_pos (by omega)]
      congr 2
      omega
    · rw [h, if_neg (by omega), if_neg (by omega)]
      rfl

/-- Witness for C19 (amended): the delay 3,000,000. -/
theorem exponential_backoff_threshold_witness :
    exponential_backoff 3000000 = Except.ok 0 :=
  (exponential_backoff_threshold 3000000 (by decide) (by decide)).2.1 (by decide)

/-! ### String hash -/

theorem str_hash_function_loop_eq (s : List Nat) (h0 : 0 ∉ s) :
    ∀ hash : Nat, str_hash_function_loop hash s =
      s.foldl (fun hash b => Int.toNat (((hash : Int) * 33 + char_to_int b) % 2 ^ 64)) hash := by
  induction s with
  | nil => intro hash; rfl
  | cons c str ih =>
    intro hash
    have hc : c ≠ 0 := fun h => h0 (by simp [h])
    have hrest : 0 ∉ str := fun h => h0 (List.mem_cons_of_mem _ h)
    unfold str_hash_function_loop
    rw [if_neg hc, ih hrest, List.foldl_cons]
    congr 1
    generalize char_to_int c = v
    push_cast
    norm_num
    omega

theorem djb2_char_eq_spec (s : List Nat) (h : ∀ b ∈ s, b < 128) :
    ∀ hash : Nat,
      s.foldl (fun hash b => Int.toNat (((hash : Int) * 33 + char_to_int b) % 2 ^ 64)) hash =
        s.foldl (fun hash b => (hash * 33 + b) % 2 ^ 64) hash := by
  induction s with
  | nil => intro hash; rfl
  | cons c str ih =>
    intro hash
    have hc : c < 128 := h c (List.mem_cons_self _ _)
    rw [List.foldl_cons, List.foldl_cons, ih (fun b hb => h b (List.mem_cons_of_mem _ hb))]
    congr 1
    unfold char_to_int
    rw [if_pos hc]
    norm_num
    omega

/-- Counterexample to C20 as stated: the one-byte string holding byte 200 is NUL-free, the
djb2 fold with the byte's value gives `5381 * 33 + 200 = 177773`, and `str_hash_function`
returns `177517`, because the byte reads as the `char` value `-56`. -/
theorem str_hash_function_counterexample :
    0 ∉ [200] ∧ djb2_spec [200] = 177773 ∧ str_hash_function [200] = 177517 := by
  decide

/-- C20 (amended): for every NUL-free byte string, `str_hash_function` is the fold that
starts from 5381 and replaces the hash by `hash * 33 + c` modulo `2^64` for each byte in
order, `c` being the value the byte has as a plain `char` (the byte's value below 128, the
byte's value minus 256 from 128 up); on strings of bytes below 128 this is the djb2 fold with
the byte's value; the empty string hashes to 5381. -/
theorem str_hash_function_spec (s : List Nat) (h0 : 0 ∉ s) :
    str_hash_function s = djb2_char s ∧
    ((∀ b ∈ s, b < 128) → str_hash_function s = djb2_spec s) ∧
    str_hash_function [] = 5381 := by
  refine ⟨str_hash_function_loop_eq s h0 5381, ?_, rfl⟩
  intro h
  unfold str_hash_function djb2_spec
  rw [str_hash_function_loop_eq s h0 5381, djb2_char_eq_spec s h 5381]

/-- Witness for C20 (amended): the URL `http://a.org/`. -/
theorem str_hash_function_spec_witness :
    str_hash_function (ascii "http://a.org/") = djb2_spec (ascii "http://a.org/") :=
  (str_hash_function_spec (ascii "http://a.org/") (by decide)).2.1 (by decide)

/-! ### Text Extractor on inputs that are not well-formed -/

/-- C13, the failing inputs: on `abc` (no `'>'` at all), on `>` (the tag-skipping loop starts
after the byte the main loop consumed) and on `<p>hello` (the last text run is not followed
by `'<'`), `find_text` reads past the terminator instead of stopping at the end of the
input. -/
theorem find_text_reads_past_terminator :
    find_text (ascii "abc") = Except.error Fault.out_of_bounds_read ∧
    find_text (ascii ">") = Except.error Fault.out_of_bounds_read ∧
    find_text (ascii "<p>hello") = Except.error Fault.out_of_bounds_read := by
  decide

/-! ### Text Extractor on well-formed pages -/

theorem is_space_iff (c : Nat) : is_space c = true ↔ c = 32 ∨ c = 10 := by
  simp [is_space]

theorem trim_left_head (t : List Nat) (c : Nat) (r : List Nat) (h : trim_left t = c :: r) :
    is_space c = false := by
  induction t with
  | nil => simp [trim_left] at h
  | cons a t ih =>
    unfold trim_left at h ih
    rw [List.dropWhile_cons] at h
    by_cases ha : is_space a = true
    · rw [if_pos ha] at h
      exact ih h
    · rw [if_neg ha] at h
      have := (List.cons.inj h).1
      subst this
      simpa using ha

theorem trim_left_split (t : List Nat) :
    t = t.takeWhile is_space ++ trim_left t ∧ ∀ c ∈ t.takeWhile is_space, is_space c = true :=
  ⟨(List.takeWhile_append_dropWhile is_space t).symm, fun _ hc => List.mem_takeWhile_imp hc⟩

theorem mem_of_mem_trim_left (t : List Nat) (c : Nat) (h : c ∈ trim_left t) : c ∈ t :=
  (List.dropWhile_suffix is_space).subset h

theorem trim_left_eq_nil_of_spaces (ws : List Nat) (h : ∀ c ∈ ws, c = 32 ∨ c = 10) :
    trim_left ws = [] := by
  unfold trim_left
  rw [List.dropWhile_eq_nil_iff]
  intro c hc
  exact (is_space_iff c).2 (h c hc)

theorem spaces_of_trim_left_eq_nil (ws : List Nat) (h : trim_left ws = []) :
    ∀ c ∈ ws, is_space c = true := by
  unfold trim_left at h
  rw [List.dropWhile_eq_nil_iff] at h
  exact h

theorem drop_append_left (s a b : List Nat) (i : Nat) (h : s.drop i = a ++ b) :
    s.drop (i + a.length) = b := by
  have h1 : s.drop (i + a.length) = (s.drop i).drop a.length := by
    rw [List.drop_drop, Nat.add_comm]
  rw [h1, h, List.drop_left]

theorem clear_whitespace_loop_skip (s : List Nat) (hmax : s.length < 2147483647) :
    ∀ (ws : List Nat) (i fuel : Nat) (r : List Nat), s.drop i = ws ++ r →
      (∀ c ∈ ws, is_space c = true) →
      (∃ c, char_at s (i + ws.length) = some c ∧ c ≠ 32 ∧ c ≠ 10) → ws.length < fuel →
      clear_whitespace_loop s fuel i = Except.ok (i + ws.length) := by
  intro ws
  induction ws with
  | nil =>
    intro i fuel r _ _ hstop hf
    obtain ⟨c, hc, h32, h10⟩ := hstop
    cases fuel with
    | zero => simp at hf
    | succ f =>
      unfold clear_whitespace_loop
      rw [read_char_of_char_at s i c (by simpa using hc)]
      simp [h32, h10]
  | cons w ws ih =>
    intro i fuel r hd hws hstop hf
    obtain ⟨hc, hr⟩ := char_at_of_drop_cons s i w (ws ++ r) (by simpa using hd)
    have hil := lt_length_of_drop_cons s i w (ws ++ r) (by simpa using hd)
    have hw : w = 32 ∨ w = 10 := (is_space_iff w).1 (hws w (List.mem_cons_self _ _))
    cases fuel with
    | zero => simp at hf
    | succ f =>
      have hidx : i + (w :: ws).length = i + 1 + ws.length := by simp; omega
      unfold clear_whitespace_loop
      rw [read_char_of_char_at s i w hc]
      simp only [hw, if_true]
      rw [int_incr_ok i (by omega), hidx]
      exact ih (i + 1) f r hr (fun c hc => hws c (List.mem_cons_of_mem _ hc))
        (by rw [← hidx]; exact hstop) (by simp at hf; omega)

theorem page_nil : page [] = [] := rfl

theorem page_cons (b t : List Nat) (rest : List (List Nat × List Nat)) :
    page ((b, t) :: rest) = 60 :: (b ++ 62 :: (t ++ page rest)) := by
  simp [page, tag]

theorem page_length_ge (items : List (List Nat × List Nat)) :
    2 * items.length ≤ (page items).length := by
  induction items with
  | nil => simp [page]
  | cons it rest ih =>
    obtain ⟨b, t⟩ := it
    rw [page_cons]
    simp
    omega

theorem last_text_single (b t : List Nat) : last_text [(b, t)] = t := rfl

theorem last_text_cons_cons (x y : List Nat × List Nat) (rest : List (List Nat × List Nat)) :
    last_text (x :: y :: rest) = last_text (y :: rest) := by
  simp [last_text, List.getLast?_cons_cons]

theorem segments_of_cons (b t : List Nat) (rest : List (List Nat × List Nat)) :
    segments_of ((b, t) :: rest) =
      if trim_left t = [] then segments_of rest else trim_left t :: segments_of rest := by
  unfold segments_of
  by_cases h : trim_left t = []
  · simp [List.filterMap_cons, h]
  · simp [List.filterMap_cons, h]

/-- The main loop over the tags and text runs of a well-formed page, from the `'<'` of a tag
on: it returns, having appended the segments of the page in order. -/
theorem find_text_loop_page (s : List Nat) (hmax : s.length < 2147483647) :
    ∀ (items : List (List Nat × List Nat)) (i fuel : Nat) (results : List (List Nat)),
      s.drop i = page items →
      (∀ it ∈ items, 62 ∉ it.1 ∧ 60 ∉ it.2 ∧ 0 ∉ it.2 ∧ (trim_left it.2).length < BUFSIZE) →
      trim_left (last_text items) = [] → i ≤ s.length → items.length < fuel →
      find_text_loop s fuel i results = Except.ok (results ++ segments_of items) := by
  intro items
  induction items with
  | nil =>
    intro i fuel results hd _ _ hi hf
    cases fuel with
    | zero => simp at hf
    | succ f =>
      rw [find_text_loop_end s f i results (by omega)
        (read_char_of_char_at s i 0 (char_at_of_drop_nil s i hi hd))]
      simp [segments_of]
  | cons it rest ih =>
    obtain ⟨b, t⟩ := it
    intro i fuel results hd hall hlast hi hf
    cases fuel with
    | zero => simp at hf
    | succ f =>
      obtain ⟨hb, ht60, ht0, htbuf⟩ := hall (b, t) (List.mem_cons_self _ _)
      dsimp only at hb ht60 ht0 htbuf
      have hrest_all : ∀ it ∈ rest,
          62 ∉ it.1 ∧ 60 ∉ it.2 ∧ 0 ∉ it.2 ∧ (trim_left it.2).length < BUFSIZE :=
        fun x hx => hall x (List.mem_cons_of_mem _ hx)
      rw [page_cons] at hd
      have hlen := length_of_drop_eq s i _ hi hd
      have hil : i < 2147483647 := by simp at hlen; omega
      have hpl := page_length_ge rest
      obtain ⟨hch, hr⟩ := char_at_of_drop_cons s i 60 _ hd
      obtain ⟨hskip, hr1⟩ := skip_tag_loop_spec s (t ++ page rest) hmax b (i + 1) (s.length + 2) hr
        hb (by simp at hlen; omega)
      obtain ⟨hsplit, hspaces⟩ := trim_left_split t
      generalize hws : t.takeWhile is_space = ws at hsplit hspaces
      have hr1b : s.drop (i + 1 + b.length + 1) = ws ++ (trim_left t ++ page rest) := by
        rw [hr1]
        conv => lhs; rw [hsplit]
        simp
      have hr2 := drop_append_left s ws _ _ hr1b
      have htlen : t.length = ws.length + (trim_left t).length := by
        conv => lhs; rw [hsplit]
        simp
      have hi2 : i + 1 + b.length + 1 + ws.length ≤ s.length := by
        simp at hlen; omega
      have hfuel_ws : ws.length < s.length + 2 := by omega
      cases htrim : trim_left t with
      | nil =>
        rw [htrim] at hr2
        have hr3 : s.drop (i + 1 + b.length + 1 + ws.length) = page rest := by simpa using hr2
        have hseg : segments_of ((b, t) :: rest) = segments_of rest := by
          rw [segments_of_cons, if_pos htrim]
        rw [hseg]
        cases rest with
        | nil =>
          have h0 := char_at_of_drop_nil s _ hi2 hr3
          have hclear : clear_whitespace s (i + 1 + b.length + 1) =
              Except.ok (i + 1 + b.length + 1 + ws.length) :=
            clear_whitespace_loop_skip s hmax ws _ _ _ hr1b hspaces
              ⟨0, h0, by decide, by decide⟩ hfuel_ws
          rw [find_text_loop_break s f i 60 _ _ 0 _ results hil (read_char_of_char_at s i 60 hch)
            (by decide) hskip hclear (read_char_of_char_at s _ 0 h0) (by decide)
            (clear_whitespace_stay s _ 0 h0 (by decide) (by decide))
            (read_char_of_char_at s _ 0 h0)]
          simp [segments_of]
        | cons it2 rest2 =>
          obtain ⟨b2, t2⟩ := it2
          have hr4 := hr3
          rw [page_cons] at hr4
          obtain ⟨hc1, _⟩ := char_at_of_drop_cons s _ 60 _ hr4
          have hclear : clear_whitespace s (i + 1 + b.length + 1) =
              Except.ok (i + 1 + b.length + 1 + ws.length) :=
            clear_whitespace_loop_skip s hmax ws _ _ _ hr1b hspaces
              ⟨60, hc1, by decide, by decide⟩ hfuel_ws
          rw [find_text_loop_adjacent s f i 60 _ _ results hil (read_char_of_char_at s i 60 hch)
            (by decide) hskip hclear (read_char_of_char_at s _ 60 hc1)]
          exact ih _ f results hr3 hrest_all
            (by rw [last_text_cons_cons] at hlast; exact hlast) hi2
            (by simp at hf ⊢; omega)
      | cons c t1 =>
        have hcsp : is_space c = false := trim_left_head t c t1 htrim
        have hc32 : c ≠ 32 := fun h => by simp [is_space, h] at hcsp
        have hc10 : c ≠ 10 := fun h => by simp [is_space, h] at hcsp
        have hmem : ∀ x ∈ c :: t1, x ∈ t := fun x hx =>
          mem_of_mem_trim_left t x (by rw [htrim]; exact hx)
        have h60 : 60 ∉ c :: t1 := fun h => ht60 (hmem 60 h)
        have h0 : 0 ∉ c :: t1 := fun h => ht0 (hmem 0 h)
        have hc60 : c ≠ 60 := fun h => h60 (by simp [h])
        have hc0 : c ≠ 0 := fun h => h0 (by simp [h])
        rw [htrim] at hr2 htbuf htlen
        have hseg : segments_of ((b, t) :: rest) = (c :: t1) :: segments_of rest := by
          rw [segments_of_cons, if_neg (by rw [htrim]; simp), htrim]
        rw [hseg]
        cases rest with
        | nil =>
          rw [last_text_single, htrim] at hlast
          exact absurd hlast (by simp)
        | cons it2 rest2 =>
          obtain ⟨b2, t2⟩ := it2
          have hr3 : s.drop (i + 1 + b.length + 1 + ws.length) =
              (c :: t1) ++ 60 :: (b2 ++ 62 :: (t2 ++ page rest2)) := by
            rw [hr2, page_cons]
          obtain ⟨hc1, _⟩ := char_at_of_drop_cons s _ c _ (by simpa using hr3)
          have hclear : clear_whitespace s (i + 1 + b.length + 1) =
              Except.ok (i + 1 + b.length + 1 + ws.length) :=
            clear_whitespace_loop_skip s hmax ws _ _ _ hr1b hspaces ⟨c, hc1, hc32, hc10⟩ hfuel_ws
          obtain ⟨hcopy, hr5⟩ := copy_text_loop_spec s _ hmax (c :: t1)
            (i + 1 + b.length + 1 + ws.length) (s.length + 2) [] hr3 h60
            (by simpa using htbuf) (by simp at hlen htlen ⊢; omega)
          have hstep := find_text_loop_segment s f i 60 _ _ c _ c _ results hil
            (read_char_of_char_at s i 60 hch) (by decide) hskip hclear
            (read_char_of_char_at s _ c hc1) hc60
            (clear_whitespace_stay s _ c hc1 hc32 hc10) (read_char_of_char_at s _ c hc1) hc0
            hcopy
          have hi3 : i + 1 + b.length + 1 + ws.length + (c :: t1).length ≤ s.length := by
            simp at hlen htlen ⊢; omega
          rw [hstep]
          dsimp only
          rw [List.nil_append, strcpy_buffer_of_nul_free (c :: t1) h0,
            ih _ f (results ++ [c :: t1]) (by rw [hr5, page_cons]) hrest_all
              (by rw [last_text_cons_cons] at hlast; exact hlast) hi3 (by simp at hf ⊢; omega)]
          simp

/-- On a well-formed input `find_text` returns, and the segments are the text runs that hold
more than spaces and newlines, each without its leading spaces and newlines, in order. -/
theorem find_text_page (ws0 : List Nat) (items : List (List Nat × List Nat))
    (hwf : page_wf ws0 items) (hmax : (ws0 ++ page items).length < 2147483647) :
    find_text (ws0 ++ page items) = Except.ok (segments_of items) := by
  obtain ⟨hws0, hall, hlast⟩ := hwf
  generalize hs : ws0 ++ page items = s at hmax
  have hd : s.drop 0 = ws0 ++ page items := by rw [← hs]; rfl
  have hd2 : s.drop (0 + ws0.length) = page items := drop_append_left s ws0 _ 0 hd
  have hlen : s.length = ws0.length + (page items).length := by rw [← hs]; simp
  have hpl := page_length_ge items
  have hstop : ∃ c, char_at s (0 + ws0.length) = some c ∧ c ≠ 32 ∧ c ≠ 10 := by
    cases items with
    | nil =>
      exact ⟨0, char_at_of_drop_nil s _ (by simp [page] at hlen; omega)
        (by rw [hd2]; rfl), by decide, by decide⟩
    | cons it rest =>
      obtain ⟨b, t⟩ := it
      rw [page_cons] at hd2
      exact ⟨60, (char_at_of_drop_cons s _ 60 _ hd2).1, by decide, by decide⟩
  have hclear : clear_whitespace s 0 = Except.ok (0 + ws0.length) :=
    clear_whitespace_loop_skip s hmax ws0 0 _ _ hd (spaces_of_trim_left_eq_nil ws0 hws0) hstop
      (by omega)
  have hloop := find_text_loop_page s hmax items (0 + ws0.length) (s.length + 2) [] hd2 hall hlast
    (by omega) (by omega)
  unfold find_text
  rw [hclear]
  simp only [bind, Except.bind]
  rw [hloop]
  rfl

theorem segments_of_head (items : List (List Nat × List Nat)) :
    ∀ seg ∈ segments_of items, seg ≠ [] ∧ seg.head? ≠ some 32 ∧ seg.head? ≠ some 10 := by
  intro seg hseg
  unfold segments_of at hseg
  rw [List.mem_filterMap] at hseg
  obtain ⟨it, _, hit⟩ := hseg
  by_cases ht : trim_left it.2 = []
  · rw [if_pos ht] at hit
    exact absurd hit (by simp)
  · rw [if_neg ht] at hit
    have hs : trim_left it.2 = seg := Option.some.inj hit
    rw [← hs]
    refine ⟨ht, ?_, ?_⟩
    · cases h : trim_left it.2 with
      | nil => simp
      | cons c r =>
        have := trim_left_head it.2 c r h
        intro h32
        simp at h32
        simp [is_space, h32] at this
    · cases h : trim_left it.2 with
      | nil => simp
      | cons c r =>
        have := trim_left_head it.2 c r h
        intro h10
        simp at h10
        simp [is_space, h10] at this

theorem segments_of_infix (ws0 : List Nat) (items : List (List Nat × List Nat)) :
    ∀ seg ∈ segments_of items, seg <:+: ws0 ++ page items := by
  intro seg hseg
  unfold segments_of at hseg
  rw [List.mem_filterMap] at hseg
  obtain ⟨it, hmem, hit⟩ := hseg
  by_cases ht : trim_left it.2 = []
  · rw [if_pos ht] at hit
    exact absurd hit (by simp)
  · rw [if_neg ht] at hit
    have hs : trim_left it.2 = seg := Option.some.inj hit
    rw [← hs]
    have h1 : trim_left it.2 <:+: it.2 := (List.dropWhile_suffix is_space).isInfix
    have h2 : it.2 <:+: tag it.1 ++ it.2 := (List.suffix_append _ _).isInfix
    have h3 : tag it.1 ++ it.2 <:+: page items :=
      List.infix_of_mem_flatten (List.mem_map.2 ⟨it, hmem, rfl⟩)
    have h4 : page items <:+: ws0 ++ page items := (List.suffix_append _ _).isInfix
    exact ((h1.trans h2).trans h3).trans h4

theorem match_step_true {α σ : Type} (results : linked_list α σ) (url : α)
    (expr content : List Nat) (segs : List (List Nat))
    (hlen : results.len = (results.hd.length : Int))
    (hft : find_text content = Except.ok segs) (hfind : find_in_text expr segs = true) :
    match_step results url expr content =
      Except.ok ({ results with hd := results.hd ++ [url], len := results.len + 1 }, true) := by
  unfold match_step
  rw [hft]
  dsimp only
  rw [if_pos hfind]
  unfold linked_list_insert_last
  rw [linked_list_insert_n_ok results url results.len (by omega) (by omega)]
  have h1 : results.len.toNat = results.hd.length := by omega
  simp [h1]

theorem match_step_false {α σ : Type} (results : linked_list α σ) (url : α)
    (expr content : List Nat) (segs : List (List Nat))
    (hft : find_text content = Except.ok segs) (hfind : find_in_text expr segs = false) :
    match_step results url expr content = Except.ok (results, false) := by
  unfold match_step
  rw [hft]
  dsimp only
  rw [if_neg (by simp [hfind])]

/-- Counterexample to C11 as stated: `<p>Hello </p>` is well-formed (it begins and ends with
a tag), and the one segment `find_text` returns for it is `Hello ` with the trailing space
kept. -/
theorem find_text_keeps_trailing_space :
    ascii "<p>Hello </p>" = [] ++ page [(ascii "p", ascii "Hello "), (ascii "/p", [])] ∧
    page_wf [] [(ascii "p", ascii "Hello "), (ascii "/p", [])] ∧
    find_text (ascii "<p>Hello </p>") = Except.ok [ascii "Hello "] ∧
    (ascii "Hello ").getLast? = some 32 := by
  decide

/-- C11 (amended): on every well-formed input shorter than `2^31 - 1` bytes `find_text`
returns the text runs that hold more than spaces and newlines, each with its leading run of
spaces and newlines stripped and the rest of the run, trailing spaces and newlines included,
kept; so no emitted segment is empty or begins with a space or a newline. -/
theorem find_text_strips_leading (ws0 : List Nat) (items : List (List Nat × List Nat))
    (hwf : page_wf ws0 items) (hmax : (ws0 ++ page items).length < 2147483647) :
    find_text (ws0 ++ page items) = Except.ok (segments_of items) ∧
    ∀ seg ∈ segments_of items, seg ≠ [] ∧ seg.head? ≠ some 32 ∧ seg.head? ≠ some 10 :=
  ⟨find_text_page ws0 items hwf hmax, segments_of_head items⟩

/-- Witness for C11 (amended): `<p> Hello </p>`. -/
theorem find_text_strips_leading_witness :
    find_text ([] ++ page [(ascii "p", ascii " Hello "), (ascii "/p", [])]) =
      Except.ok [ascii "Hello "] :=
  (find_text_strips_leading [] [(ascii "p", ascii " Hello "), (ascii "/p", [])]
    (by decide) (by decide)).1

/-- Counterexample to C12 as stated: `<a> </a>` is a tag, one space, a tag, and `find_text`
returns no segment for it, not one. -/
theorem find_text_whitespace_counterexample :
    ascii "<a> </a>" = tag (ascii "a") ++ [32] ++ tag (ascii "/a") ∧
    find_text (ascii "<a> </a>") = Except.ok [] := by
  decide

/-- C12 (amended): for every input shorter than `2^31 - 1` bytes made of a tag, a run of
spaces or newlines (one or more, or none), and a tag (tag bodies free of `'>'`), `find_text`
returns no segment: the whitespace is skipped and the tag that follows it is taken as
adjacent. -/
theorem find_text_whitespace_between_tags (b1 b2 ws : List Nat)
    (h1 : 62 ∉ b1) (h2 : 62 ∉ b2) (hws : ∀ c ∈ ws, c = 32 ∨ c = 10)
    (hmax : (tag b1 ++ ws ++ tag b2).length < 2147483647) :
    find_text (tag b1 ++ ws ++ tag b2) = Except.ok [] := by
  have htrim := trim_left_eq_nil_of_spaces ws hws
  have hwf : page_wf [] [(b1, ws), (b2, [])] := by
    refine ⟨rfl, ?_, rfl⟩
    intro it hit
    simp only [List.mem_cons, List.mem_singleton, List.not_mem_nil, or_false] at hit
    rcases hit with h | h
    · subst h
      refine ⟨h1, ?_, ?_, ?_⟩
      · intro h60
        rcases hws 60 h60 with h | h <;> exact absurd h (by decide)
      · intro h0
        rcases hws 0 h0 with h | h <;> exact absurd h (by decide)
      · show (trim_left ws).length < BUFSIZE
        rw [htrim]
        decide
    · subst h
      exact ⟨h2, by simp, by simp, by simp [trim_left, BUFSIZE]⟩
  have hp : [] ++ page [(b1, ws), (b2, [])] = tag b1 ++ ws ++ tag b2 := by
    simp [page]
  have h := find_text_page [] [(b1, ws), (b2, [])] hwf (by rw [hp]; exact hmax)
  have hs : segments_of [(b1, ws), (b2, [])] = [] := by
    rw [segments_of_cons, if_pos htrim]
    rfl
  rw [hp, hs] at h
  exact h

/-- Witness for C12 (amended): `<a>`, a space and a newline, `</a>`. -/
theorem find_text_whitespace_between_tags_witness :
    find_text (tag (ascii "a") ++ [32, 10] ++ tag (ascii "/a")) = Except.ok [] :=
  find_text_whitespace_between_tags (ascii "a") (ascii "/a") [32, 10]
    (by decide) (by decide) (by decide) (by decide)

/-! ### The worker's match test -/

/-- Counterexample to C15 as stated: the content `<p>hello</p>` contains the expression `<p>`
as a literal substring, yet `find_in_text` is `false` on the segments of the content, and the
worker appends nothing to the empty Result Collection. -/
theorem match_step_counterexample :
    ascii "<p>" <:+: ascii "<p>hello</p>" ∧
    find_text (ascii "<p>hello</p>") = Except.ok [ascii "hello"] ∧
    find_in_text (ascii "<p>") [ascii "hello"] = false ∧
    (match_step (linked_list_new record_call) (ascii "http://a.org/") (ascii "<p>")
        (ascii "<p>hello</p>")).map (fun r => (r.1.hd, r.1.len, r.2)) =
      Except.ok ([], 0, false) := by
  decide

/-- C15 (amended): for every well-formed page content shorter than `2^31 - 1` bytes (spaces
and newlines, then tags each followed by a text run, only spaces and newlines after the last
tag; tag bodies free of `'>'`, text runs free of `'<'` and NUL and shorter than `BUFSIZE`) and
every target expression `e`, if `e` occurs as a literal substring inside one of the segments
of the content (a text run without its leading spaces and newlines), then `find_text`
returns, `find_in_text` is `true` on its segments, and the worker's match test appends the
URL, so that a Result Collection empty before ends with exactly one entry equal to that
URL. -/
theorem match_step_appends {α σ : Type} (val_teardown : α → σ → σ) (url : α)
    (ws0 : List Nat) (items : List (List Nat × List Nat)) (e : List Nat)
    (hwf : page_wf ws0 items) (hmax : (ws0 ++ page items).length < 2147483647)
    (hocc : ∃ seg ∈ segments_of items, e <:+: seg) :
    ∃ segs, find_text (ws0 ++ page items) = Except.ok segs ∧
      find_in_text e segs = true ∧
      match_step (linked_list_new val_teardown) url e (ws0 ++ page items) =
        Except.ok ({ len := 1, hd := [url], val_teardown := val_teardown }, true) := by
  have hft := find_text_page ws0 items hwf hmax
  have hfind : find_in_text e (segments_of items) = true := (find_in_text_iff _ _).2 hocc
  refine ⟨_, hft, hfind, ?_⟩
  rw [match_step_true (linked_list_new val_teardown) url e _ _ rfl hft hfind]
  rfl

/-- Witness for C15 (amended): the page `<p>Hello world</p>` and the expression `lo wo`. -/
theorem match_step_appends_witness :
    ∃ segs, find_text ([] ++ page [(ascii "p", ascii "Hello world"), (ascii "/p", [])]) =
        Except.ok segs ∧
      find_in_text (ascii "lo wo") segs = true ∧
      match_step (linked_list_new record_call) (ascii "http://a.org/") (ascii "lo wo")
          ([] ++ page [(ascii "p", ascii "Hello world"), (ascii "/p", [])]) =
        Except.ok ({ len := 1, hd := [ascii "http://a.org/"], val_teardown := record_call },
          true) :=
  match_step_appends record_call (ascii "http://a.org/") []
    [(ascii "p", ascii "Hello world"), (ascii "/p", [])] (ascii "lo wo") (by decide)
    (by decide) ⟨ascii "Hello world", by decide, by decide⟩

theorem copy_text_loop_overflow (s rest : List Nat) (hmax : s.length < 2147483647) :
    ∀ (t : List Nat) (i fuel : Nat) (buffer : List Nat), s.drop i = t ++ 60 :: rest →
      60 ∉ t → buffer.length + t.length = BUFSIZE → t.length < fuel →
      copy_text_loop s fuel i buffer = Except.error Fault.buffer_overflow := by
  intro t
  induction t with
  | nil =>
    intro i fuel buffer hd _ hbuf hf
    obtain ⟨hc, _⟩ := char_at_of_drop_cons s i 60 rest (by simpa using hd)
    cases fuel with
    | zero => simp at hf
    | succ f =>
      have hb : ¬ buffer.length < BUFSIZE := by simp at hbuf; omega
      unfold copy_text_loop
      rw [read_char_of_char_at s i 60 hc]
      simp only [hb, if_false]
  | cons b t ih =>
    intro i fuel buffer hd hnot hbuf hf
    obtain ⟨hc, hr⟩ := char_at_of_drop_cons s i b (t ++ 60 :: rest) (by simpa using hd)
    have hil := lt_length_of_drop_cons s i b (t ++ 60 :: rest) (by simpa using hd)
    have hb : b ≠ 60 := by
      intro hb
      apply hnot
      simp [hb]
    cases fuel with
    | zero => simp at hf
    | succ f =>
      have hlen : buffer.length < BUFSIZE := by simp at hbuf; omega
      have hrec := ih (i + 1) f (buffer ++ [b]) hr (fun hm => hnot (List.mem_cons_of_mem _ hm))
        (by simp at hbuf ⊢; omega) (by simp at hf; omega)
      unfold copy_text_loop
      rw [read_char_of_char_at s i b hc, int_incr_ok i (by omega)]
      simp only [hlen, hb, ne_eq, not_false_eq_true, if_true]
      exact hrec

/-- The page `<p>`, a text run of `m` bytes `A`, `</p>` with `m = BUFSIZE`: the run fills
`buffer`, and the terminator is written at `buffer[BUFSIZE]`. -/
theorem find_text_long_run (m : Nat) (hm : m = 1638400) :
    find_text (page [(ascii "p", List.replicate m 65), (ascii "/p", [])]) =
      Except.error Fault.buffer_overflow := by
  obtain ⟨k, hk⟩ : ∃ k, m = k + 1 := ⟨m - 1, by omega⟩
  have hp : ascii "p" = [112] := by decide
  have hp2 : ascii "/p" = [47, 112] := by decide
  generalize hs : page [(ascii "p", List.replicate m 65), (ascii "/p", [])] = s
  have hd : s.drop 0 = 60 :: ([112] ++ 62 :: (List.replicate m 65 ++ 60 :: [47, 112, 62])) := by
    rw [← hs, hp, hp2]
    simp [page, tag]
  have hlen : s.length = m + 7 := by
    have := length_of_drop_eq s 0 _ (Nat.zero_le _) hd
    simp at this
    omega
  have hmax : s.length < 2147483647 := by omega
  obtain ⟨hch, hr⟩ := char_at_of_drop_cons s 0 60 _ hd
  obtain ⟨hskip, hr1⟩ := skip_tag_loop_spec s _ hmax [112] (0 + 1) (s.length + 2) hr
    (by decide) (by simp)
  have hr2 : s.drop (0 + 1 + [112].length + 1) =
      65 :: (List.replicate k 65 ++ 60 :: [47, 112, 62]) := by
    rw [hr1, hk, List.replicate_succ]
    rfl
  obtain ⟨hc1, _⟩ := char_at_of_drop_cons s _ 65 _ hr2
  have hcopy := copy_text_loop_overflow s [47, 112, 62] hmax (List.replicate m 65)
    (0 + 1 + [112].length + 1) (s.length + 2) [] hr1
    (fun h => absurd (List.eq_of_mem_replicate h) (by decide))
    (by simp only [List.length_nil, List.length_replicate, BUFSIZE]; omega)
    (by simp only [List.length_replicate]; omega)
  have hfuel : s.length + 2 = (s.length + 1) + 1 := rfl
  unfold find_text
  rw [clear_whitespace_stay s 0 60 hch (by decide) (by decide)]
  simp only [bind, Except.bind]
  rw [hfuel]
  exact find_text_loop_copy_fault s _ 0 60 _ _ 65 _ 65 _ [] (by decide)
    (read_char_of_char_at s 0 60 hch) (by decide) hskip
    (clear_whitespace_stay s _ 65 hc1 (by decide) (by decide))
    (read_char_of_char_at s _ 65 hc1) (by decide)
    (clear_whitespace_stay s _ 65 hc1 (by decide) (by decide))
    (read_char_of_char_at s _ 65 hc1) (by decide) hcopy

theorem long_run_no_xyz (m : Nat) :
    ¬ ascii "xyz" <:+: page [(ascii "p", List.replicate m 65), (ascii "/p", [])] := by
  intro h
  have hx : 120 ∈ ascii "xyz" := by decide
  have hin := h.subset hx
  have hp : ascii "p" = [112] := by decide
  have hp2 : ascii "/p" = [47, 112] := by decide
  rw [hp, hp2] at hin
  simp [page, tag, List.mem_replicate] at hin

theorem match_step_fault {α σ : Type} (results : linked_list α σ) (url : α)
    (expr content : List Nat) (e : Fault) (hft : find_text content = Except.error e) :
    match_step results url expr content = Except.error e := by
  unfold match_step
  rw [hft]

/-- Counterexample to C16 as stated, at two inputs made of tags and text runs that begin and
end with a tag and in which the expression `xyz` does not occur. On the page `<p>`, 1,638,400
bytes `A`, `</p>` the text run fills the `BUFSIZE` bytes of `buffer` and the terminator is
written past its end; on the page of `2^30` empty tags `<>` the index `i` is incremented at
`INT_MAX`. In both `find_text` returns no segments for `find_in_text` to be `false` on, and
the worker's match test inherits the fault. -/
theorem match_step_no_match_counterexample :
    (¬ ascii "xyz" <:+: page [(ascii "p", List.replicate 1638400 65), (ascii "/p", [])] ∧
      find_text (page [(ascii "p", List.replicate 1638400 65), (ascii "/p", [])]) =
        Except.error Fault.buffer_overflow ∧
      (match_step (linked_list_new record_call) (ascii "http://a.org/") (ascii "xyz")
          (page [(ascii "p", List.replicate 1638400 65), (ascii "/p", [])])).map
          (fun r => (r.1.hd, r.1.len, r.2)) =
        Except.error Fault.buffer_overflow) ∧
    (¬ ascii "xyz" <:+: page (List.replicate 1073741824 (([] : List Nat), ([] : List Nat))) ∧
      find_text (page (List.replicate 1073741824 (([] : List Nat), ([] : List Nat)))) =
        Except.error Fault.signed_overflow ∧
      (match_step (linked_list_new record_call) (ascii "http://a.org/") (ascii "xyz")
          (page (List.replicate 1073741824 (([] : List Nat), ([] : List Nat))))).map
          (fun r => (r.1.hd, r.1.len, r.2)) =
        Except.error Fault.signed_overflow) :=
  have h1 := find_text_long_run 1638400 rfl
  have h2 : find_text (page (List.replicate 1073741824 (([] : List Nat), ([] : List Nat)))) =
      Except.error Fault.signed_overflow := by
    rw [page_replicate_empty, ← List.append_nil (tags _)]
    exact find_text_int_overflow_tags 1073741824 [] (by decide)
  ⟨⟨long_run_no_xyz 1638400, h1, by rw [match_step_fault _ _ _ _ _ h1]; rfl⟩,
    ⟨empty_tags_no_xyz 1073741824, h2, by rw [match_step_fault _ _ _ _ _ h2]; rfl⟩⟩

/-- C16 (amended): for every well-formed page content shorter than `2^31 - 1` bytes whose
text runs are shorter than `BUFSIZE` (spaces and newlines, then tags each followed by a text
run, only spaces and newlines after the last tag; tag bodies free of `'>'`, text runs free of
`'<'` and NUL) and every target expression `e` that does not occur in the content as a
literal substring, `find_text` returns segments that are all contiguous parts of the content,
`find_in_text` is `false` on them, and the worker's match test appends nothing, so that a
Result Collection empty before stays empty. -/
theorem match_step_no_match {α σ : Type} (val_teardown : α → σ → σ) (url : α)
    (ws0 : List Nat) (items : List (List Nat × List Nat)) (e : List Nat)
    (hwf : page_wf ws0 items) (hmax : (ws0 ++ page items).length < 2147483647)
    (hno : ¬ e <:+: ws0 ++ page items) :
    ∃ segs, find_text (ws0 ++ page items) = Except.ok segs ∧
      (∀ seg ∈ segs, seg <:+: ws0 ++ page items) ∧
      find_in_text e segs = false ∧
      match_step (linked_list_new val_teardown) url e (ws0 ++ page items) =
        Except.ok (linked_list_new val_teardown, false) := by
  have hft := find_text_page ws0 items hwf hmax
  have hinf := segments_of_infix ws0 items
  have hfind : find_in_text e (segments_of items) = false := by
    cases h : find_in_text e (segments_of items) with
    | false => rfl
    | true =>
      obtain ⟨seg, hseg, he⟩ := (find_in_text_iff _ _).1 h
      exact absurd (he.trans (hinf seg hseg)) hno
  exact ⟨_, hft, hinf, hfind, match_step_false _ url e _ _ hft hfind⟩

/-- Witness for C16 (amended): the page `<p>Hello world</p>` and the expression `xyz`. -/
theorem match_step_no_match_witness :
    ∃ segs, find_text ([] ++ page [(ascii "p", ascii "Hello world"), (ascii "/p", [])]) =
        Except.ok segs ∧
      (∀ seg ∈ segs, seg <:+: [] ++ page [(ascii "p", ascii "Hello world"), (ascii "/p", [])]) ∧
      find_in_text (ascii "xyz") segs = false ∧
      match_step (linked_list_new record_call) (ascii "http://a.org/") (ascii "xyz")
          ([] ++ page [(ascii "p", ascii "Hello world"), (ascii "/p", [])]) =
        Except.ok (linked_list_new record_call, false) :=
  match_step_no_match record_call (ascii "http://a.org/") []
    [(ascii "p", ascii "Hello world"), (ascii "/p", [])] (ascii "xyz") (by decide) (by decide)
    (by decide)

/-! ### Frame of `hash_table_insert` -/

/-- C24: on a table state with at least one bucket whose comparison function is `strcmp`,
for URLs `u` and `v` that do not compare equal, `hash_table_contains` answers for `v` after
`hash_table_insert(t, u)` what it answered before, and every bucket other than the bucket at
index `hash(u) mod size` holds the chain it held before (the number of buckets, the
comparison and the hash function are unchanged as well). -/
theorem hash_table_insert_frame (t : hash_table (List Nat)) (u v : List Nat)
    (hwf : hash_table_wf t) (hcmp : t.compare = strcmp) (hne : strcmp u v ≠ 0) :
    hash_table_contains (hash_table_insert t u).1 v = hash_table_contains t v ∧
    (∀ j, j ≠ GET_INDEX (t.hash u) t.size →
      (hash_table_insert t u).1.elements[j]? = t.elements[j]?) ∧
    (hash_table_insert t u).1.elements.length = t.elements.length ∧
    (hash_table_insert t u).1.size = t.size ∧
    (hash_table_insert t u).1.compare = t.compare ∧
    (hash_table_insert t u).1.hash = t.hash := by
  have hf := hash_table_insert_fields t u
  refine ⟨?_, ?_, ?_, hf.1, hf.2.1, hf.2.2.1⟩
  · rw [hash_table_contains_insert t u v hwf]
    have hc : ¬ t.compare u v = 0 := by rw [hcmp]; exact hne
    split <;> simp [hc]
  · intro j hj
    rw [hash_table_insert_elements, List.getElem?_set_ne (fun h => hj h.symm)]
  · rw [hash_table_insert_elements, List.length_set]

/-- Witness for C24: the crawler's table, inserting `http://a.org/` and asking for
`http://b.org/`. -/
theorem hash_table_insert_frame_witness :
    hash_table_contains (hash_table_insert crawler_table (ascii "http://a.org/")).1
        (ascii "http://b.org/") =
      hash_table_contains crawler_table (ascii "http://b.org/") :=
  (hash_table_insert_frame crawler_table (ascii "http://a.org/") (ascii "http://b.org/")
    (hash_table_create_wf _ _ _) rfl (by decide)).1

/-! ### Memory accesses of the Text Extractor -/

theorem traced_bind_eq {X Y : Type} (m : Traced X) (f : X → Traced Y) :
    (m >>= f) = Traced.bind m f := rfl

theorem traced_pure_eq {X : Type} (x : X) : (pure x : Traced X) = Traced.pure x := rfl

theorem traced_bind_result {X Y : Type} (m : Traced X) (f : X → Traced Y) :
    (Traced.bind m f).result =
      match m.result with
      | Except.error e => Except.error e
      | Except.ok x => (f x).result := by
  unfold Traced.bind
  cases m.result <;> rfl

theorem traced_sound_pure {X : Type} (str : List Nat) (x : X) :
    Traced.sound str (Traced.pure x) := by
  intro y _ a ha
  simp [Traced.pure] at ha

theorem traced_sound_out_of_fuel {X : Type} (str : List Nat) :
    Traced.sound str (traced_out_of_fuel : Traced X) := by
  intro y _ a ha
  simp [traced_out_of_fuel] at ha

theorem traced_sound_bind {X Y : Type} (str : List Nat) (m : Traced X) (f : X → Traced Y)
    (hm : Traced.sound str m) (hf : ∀ x, m.result = Except.ok x → Traced.sound str (f x)) :
    Traced.sound str (Traced.bind m f) := by
  intro y hy a ha
  unfold Traced.bind at hy ha
  cases hr : m.result with
  | error e =>
    rw [hr] at hy
    simp at hy
  | ok x =>
    rw [hr] at hy ha
    dsimp only at hy ha
    rcases List.mem_append.1 ha with h | h
    · exact hm x hr a h
    · exact hf x hr y hy a h

theorem read_char_ok_le (str : List Nat) (i c : Nat) (h : read_char str i = Except.ok c) :
    i ≤ str.length := by
  unfold read_char char_at at h
  by_contra hgt
  have hnone : (str ++ [0])[i]? = none := by
    apply List.getElem?_eq_none
    simp
    omega
  rw [hnone] at h
  simp at h

theorem traced_sound_read (str : List Nat) (i : Nat) :
    Traced.sound str (traced_read str i) := by
  intro c hc a ha
  simp only [traced_read, List.mem_singleton] at ha hc
  subst ha
  exact read_char_ok_le str i c hc

theorem traced_sound_write (str : List Nat) (j : Nat) :
    Traced.sound str (traced_write j) := by
  intro u hu a ha
  simp only [traced_write, List.mem_singleton] at ha hu
  subst ha
  show j < BUFSIZE
  by_contra hge
  rw [if_neg hge] at hu
  simp at hu

theorem traced_sound_incr (str : List Nat) (i : Nat) :
    Traced.sound str (traced_incr i) := by
  intro y _ a ha
  simp [traced_incr] at ha

theorem clear_whitespace_loop_traced_sound (str : List Nat) :
    ∀ fuel i, Traced.sound str (clear_whitespace_loop_traced str fuel i) := by
  intro fuel
  induction fuel with
  | zero => intro i; exact traced_sound_out_of_fuel str
  | succ f ih =>
    intro i
    unfold clear_whitespace_loop_traced
    rw [traced_bind_eq]
    apply traced_sound_bind str _ _ (traced_sound_read str i)
    intro c _
    split
    · rw [traced_bind_eq]
      apply traced_sound_bind str _ _ (traced_sound_incr str i)
      intro i1 _
      exact ih i1
    · exact traced_sound_pure str i

theorem skip_tag_loop_traced_sound (str : List Nat) :
    ∀ fuel i, Traced.sound str (skip_tag_loop_traced str fuel i) := by
  intro fuel
  induction fuel with
  | zero => intro i; exact traced_sound_out_of_fuel str
  | succ f ih =>
    intro i
    unfold skip_tag_loop_traced
    rw [traced_bind_eq]
    apply traced_sound_bind str _ _ (traced_sound_read str i)
    intro c _
    rw [traced_bind_eq]
    apply traced_sound_bind str _ _ (traced_sound_incr str i)
    intro i1 _
    split
    · exact ih i1
    · exact traced_sound_pure str i1

theorem copy_text_loop_traced_sound (str : List Nat) :
    ∀ fuel i buffer, Traced.sound str (copy_text_loop_traced str fuel i buffer) := by
  intro fuel
  induction fuel with
  | zero => intro i buffer; exact traced_sound_out_of_fuel str
  | succ f ih =>
    intro i buffer
    unfold copy_text_loop_traced
    rw [traced_bind_eq]
    apply traced_sound_bind str _ _ (traced_sound_read str i)
    intro c _
    rw [traced_bind_eq]
    apply traced_sound_bind str _ _ (traced_sound_write str buffer.length)
    intro _ _
    split
    · rw [traced_bind_eq]
      apply traced_sound_bind str _ _ (traced_sound_incr str i)
      intro i1 _
      exact ih i1 (buffer ++ [c])
    · exact traced_sound_pure str (i, buffer)

theorem find_text_loop_traced_sound (str : List Nat) :
    ∀ fuel i results, Traced.sound str (find_text_loop_traced str fuel i results) := by
  intro fuel
  induction fuel with
  | zero => intro i results; exact traced_sound_out_of_fuel str
  | succ f ih =>
    intro i results
    unfold find_text_loop_traced
    rw [traced_bind_eq]
    apply traced_sound_bind str _ _ (traced_sound_read str i)
    intro c _
    rw [traced_bind_eq]
    apply traced_sound_bind str _ _ (traced_sound_incr str i)
    intro i0 _
    split
    · exact traced_sound_pure str results
    · rw [traced_bind_eq]
      apply traced_sound_bind str _ _ (skip_tag_loop_traced_sound str _ _)
      intro i1 _
      rw [traced_bind_eq]
      apply traced_sound_bind str _ _ (clear_whitespace_loop_traced_sound str _ _)
      intro i2 _
      rw [traced_bind_eq]
      apply traced_sound_bind str _ _ (traced_sound_read str i2)
      intro c2 _
      split
      · exact ih i2 results
      · rw [traced_bind_eq]
        apply traced_sound_bind str _ _ (clear_whitespace_loop_traced_sound str _ _)
        intro i3 _
        rw [traced_bind_eq]
        apply traced_sound_bind str _ _ (traced_sound_read str i3)
        intro c3 _
        split
        · exact traced_sound_pure str results
        · rw [traced_bind_eq]
          apply traced_sound_bind str _ _ (copy_text_loop_traced_sound str _ _ _)
          intro r _
          exact ih r.1 _

theorem find_text_traced_sound (str : List Nat) : Traced.sound str (find_text_traced str) := by
  unfold find_text_traced
  rw [traced_bind_eq]
  apply traced_sound_bind str _ _ (clear_whitespace_loop_traced_sound str _ _)
  intro i _
  exact find_text_loop_traced_sound str _ _ _

theorem clear_whitespace_loop_traced_result (str : List Nat) :
    ∀ fuel i, (clear_whitespace_loop_traced str fuel i).result =
      clear_whitespace_loop str fuel i := by
  intro fuel
  induction fuel with
  | zero => intro i; rfl
  | succ f ih =>
    intro i
    unfold clear_whitespace_loop_traced clear_whitespace_loop
    rw [traced_bind_eq, traced_bind_result]
    simp only [traced_read]
    cases read_char str i with
    | error e => rfl
    | ok c =>
      dsimp only
      split
      · rw [traced_bind_eq, traced_bind_result]
        simp only [traced_incr]
        cases int_incr i with
        | error e => rfl
        | ok i1 => exact ih i1
      · rfl

theorem skip_tag_loop_traced_result (str : List Nat) :
    ∀ fuel i, (skip_tag_loop_traced str fuel i).result = skip_tag_loop str fuel i := by
  intro fuel
  induction fuel with
  | zero => intro i; rfl
  | succ f ih =>
    intro i
    unfold skip_tag_loop_traced skip_tag_loop
    rw [traced_bind_eq, traced_bind_result]
    simp only [traced_read]
    cases read_char str i with
    | error e => rfl
    | ok c =>
      dsimp only
      rw [traced_bind_eq, traced_bind_result]
      simp only [traced_incr]
      cases int_incr i with
      | error e => rfl
      | ok i1 =>
        dsimp only
        split
        · exact ih i1
        · rfl

theorem copy_text_loop_traced_result (str : List Nat) :
    ∀ fuel i buffer, (copy_text_loop_traced str fuel i buffer).result =
      copy_text_loop str fuel i buffer := by
  intro fuel
  induction fuel with
  | zero => intro i buffer; rfl
  | succ f ih =>
    intro i buffer
    unfold copy_text_loop_traced copy_text_loop
    rw [traced_bind_eq, traced_bind_result]
    simp only [traced_read]
    cases read_char str i with
    | error e => rfl
    | ok c =>
      dsimp only
      rw [traced_bind_eq, traced_bind_result]
      by_cases hb : buffer.length < BUFSIZE
      · simp only [traced_write, hb, if_true]
        split
        · rw [traced_bind_eq, traced_bind_result]
          simp only [traced_incr]
          cases int_incr i with
          | error e => rfl
          | ok i1 => exact ih i1 (buffer ++ [c])
        · rfl
      · simp only [traced_write, hb, if_false]

theorem traced_bind_result_eq {X Y : Type} (m : Traced X) (f : X → Traced Y) :
    (Traced.bind m f).result = m.result >>= fun x => (f x).result := by
  rw [traced_bind_result]
  cases m.result <;> rfl

theorem traced_ite_result {X : Type} (p : Prop) [Decidable p] (a b : Traced X) :
    (if p then a else b).result = if p then a.result else b.result := by
  split <;> rfl

theorem traced_pure_result {X : Type} (x : X) : (Traced.pure x).result = Except.ok x := rfl

theorem find_text_loop_traced_result (str : List Nat) :
    ∀ fuel i results, (find_text_loop_traced str fuel i results).result =
      find_text_loop str fuel i results := by
  intro fuel
  induction fuel with
  | zero => intro i results; rfl
  | succ f ih =>
    intro i results
    unfold find_text_loop_traced find_text_loop
    simp only [traced_bind_eq, traced_pure_eq, traced_bind_result_eq, traced_ite_result,
      traced_pure_result, traced_read, traced_incr, clear_whitespace_traced, clear_whitespace,
      clear_whitespace_loop_traced_result, skip_tag_loop_traced_result,
      copy_text_loop_traced_result, ih]
    rfl

theorem find_text_traced_result (str : List Nat) :
    (find_text_traced str).result = find_text str := by
  unfold find_text_traced find_text
  simp only [traced_bind_eq, traced_bind_result_eq, clear_whitespace_traced, clear_whitespace,
    clear_whitespace_loop_traced_result, find_text_loop_traced_result]


/-- Counterexample to C22 as stated: `2^30` adjacent empty tags `<>` make a well-formed input,
one that begins and ends with a tag and has no text run at all, and `find_text` does not
terminate with a result on it: the `'>'` of the last tag stands at index `INT_MAX`, where the
`i++` of the tag-skipping loop leaves the `int` range. -/
theorem find_text_safe_counterexample :
    page_wf [] (List.replicate 1073741824 (([] : List Nat), ([] : List Nat))) ∧
    find_text ([] ++ page (List.replicate 1073741824 (([] : List Nat), ([] : List Nat)))) =
      Except.error Fault.signed_overflow :=
  ⟨page_wf_replicate_empty 1073741824, by
    rw [List.nil_append, page_replicate_empty, ← List.append_nil (tags _)]
    exact find_text_int_overflow_tags 1073741824 [] (by decide)⟩

/-- C22 (amended): on every well-formed input shorter than `2^31 - 1` bytes (optional leading
spaces and newlines, then tags and text runs, only spaces and newlines after the last tag;
tag bodies free of `'>'`, text runs free of `'<'` and NUL and shorter than `BUFSIZE`),
`find_text` terminates with its segments, every read of the input it makes is at an index no
greater than the terminator's, and every write to `buffer` it makes is at an index below
`BUFSIZE`. -/
theorem find_text_safe (ws0 : List Nat) (items : List (List Nat × List Nat))
    (hwf : page_wf ws0 items) (hmax : (ws0 ++ page items).length < 2147483647) :
    find_text (ws0 ++ page items) = Except.ok (segments_of items) ∧
    (find_text_traced (ws0 ++ page items)).result = Except.ok (segments_of items) ∧
    (∀ i, access.read i ∈ (find_text_traced (ws0 ++ page items)).trace →
      i ≤ (ws0 ++ page items).length) ∧
    (∀ j, access.write j ∈ (find_text_traced (ws0 ++ page items)).trace → j < BUFSIZE) := by
  have hft := find_text_page ws0 items hwf hmax
  have hres : (find_text_traced (ws0 ++ page items)).result = Except.ok (segments_of items) := by
    rw [find_text_traced_result, hft]
  have hsound := find_text_traced_sound (ws0 ++ page items) _ hres
  exact ⟨hft, hres, fun i hi => hsound _ hi, fun j hj => hsound _ hj⟩

/-- Witness for C22 (amended): a space, `<p> Hi </p>` and a newline. -/
theorem find_text_safe_witness :
    find_text ([32] ++ page [(ascii "p", ascii " Hi "), (ascii "/p", [10])]) =
      Except.ok [ascii "Hi "] ∧
    (∀ i, access.read i ∈
        (find_text_traced ([32] ++ page [(ascii "p", ascii " Hi "), (ascii "/p", [10])])).trace →
      i ≤ ([32] ++ page [(ascii "p", ascii " Hi "), (ascii "/p", [10])]).length) :=
  have h := find_text_safe [32] [(ascii "p", ascii " Hi "), (ascii "/p", [10])] (by decide)
    (by decide)
  ⟨h.1, h.2.2.1⟩

/-! ### The `len` field -/

theorem linked_list_remove_n_eq_unlinked {α σ : Type} (list : linked_list α σ) (n : Int)
    (s : σ) :
    linked_list_remove_n list n s =
      match linked_list_remove_n_unlinked list n with
      | Except.error e => Except.error e
      | Except.ok none => Except.ok (list, s, -1)
      | Except.ok (some (_, none)) => Except.error Fault.null_deref
      | Except.ok (some (l, some val)) => Except.ok (l, list.val_teardown val s, l.len) := by
  unfold linked_list_remove_n linked_list_remove_n_unlinked
  by_cases hz : n = 0
  · rw [if_pos hz, if_pos hz]
    cases list.hd <;> rfl
  · rw [if_neg hz, if_neg hz]
    dsimp only
    by_cases hr : (linked_list_select_n_min_1 list node_ptr.uninit n).1 ≠ 0
    · rw [if_pos hr, if_pos hr]
    · rw [if_neg hr, if_neg hr]
      cases (linked_list_select_n_min_1 list node_ptr.uninit n).2 with
      | uninit => rfl
      | null => rfl
      | node k =>
        dsimp only
        cases list.hd[k + 1]? <;> rfl

theorem linked_list_remove_search_loop_spec {α : Type} (cond : α → Bool) :
    ∀ (chain : List α) (k p : Nat) (val : α),
      linked_list_remove_search_loop cond chain k = some (p, val) →
        k ≤ p ∧ p - k < chain.length := by
  intro chain
  induction chain with
  | nil =>
    intro k p val h
    simp [linked_list_remove_search_loop] at h
  | cons v nxt ih =>
    intro k p val h
    unfold linked_list_remove_search_loop at h
    split at h
    · have hp : k = p := congrArg Prod.fst (Option.some.inj h)
      subst hp
      simp
    · obtain ⟨h1, h2⟩ := ih (k + 1) p val h
      simp
      omega

/-- Every call of `linked_list_insert_n`, of `linked_list_remove_search` and, except with
`n` equal to the number of nodes, of `linked_list_remove_n` returns and keeps `len` equal to
the number of nodes; `linked_list_new` starts with both at `0`. -/
theorem linked_list_len_preserved {α σ : Type} (list : linked_list α σ)
    (hlen : list.len = (list.hd.length : Int)) :
    (∀ td : α → σ → σ,
      (linked_list_new td).len = (((linked_list_new td).hd.length : Nat) : Int)) ∧
    (∀ (val : α) (n : Int), ∃ r, linked_list_insert_n list val n = Except.ok r ∧
      r.1.len = (r.1.hd.length : Int)) ∧
    (∀ (n : Int) (s : σ), n ≠ (list.hd.length : Int) →
      ∃ r, linked_list_remove_n list n s = Except.ok r ∧ r.1.len = (r.1.hd.length : Int)) ∧
    (∀ (cond : α → Bool) (s : σ),
      (linked_list_remove_search list cond s).1.len =
        ((linked_list_remove_search list cond s).1.hd.length : Int)) := by
  refine ⟨fun td => rfl, ?_, ?_, ?_⟩
  · intro val n
    by_cases h : 0 ≤ n ∧ n ≤ (list.hd.length : Int)
    · refine ⟨_, linked_list_insert_n_ok list val n h.1 h.2, ?_⟩
      simp [List.length_take, List.length_drop]
      omega
    · exact ⟨_, linked_list_insert_n_fail list val n (by omega), hlen⟩
  · intro n s hn
    by_cases h : 0 ≤ n ∧ n < (list.hd.length : Int)
    · obtain ⟨v, _, hv⟩ := linked_list_remove_n_in_range list n s h.1 h.2
      refine ⟨_, hv, ?_⟩
      simp [List.length_take, List.length_drop]
      omega
    · exact ⟨_, linked_list_remove_n_out_of_range list n s (by omega), hlen⟩
  · intro cond s
    unfold linked_list_remove_search
    cases hloop : linked_list_remove_search_loop cond list.hd 0 with
    | none => exact hlen
    | some pv =>
      obtain ⟨p, val⟩ := pv
      obtain ⟨_, hp⟩ := linked_list_remove_search_loop_spec cond list.hd 0 p val hloop
      cases p with
      | zero =>
        simp [List.length_tail]
        omega
      | succ k =>
        simp [unlink_after_eq list.hd k (by omega), List.length_take, List.length_drop]
        omega

/-- C23, the failing input: on the list holding 10, 20, 30 with `len = 3`,
`linked_list_remove_n(list, 3)` reaches the read of `tmp->val` with `len` decremented to 2
while the three nodes are all still linked and `tmp` is `NULL`, and the read is a `NULL`
dereference; `linked_list_insert_n` and `linked_list_remove_n` at index 1 of the same list
keep `len` equal to the number of nodes. -/
theorem linked_list_len_broken_at_len :
    (linked_list_remove_n_unlinked
        ({ len := 3, hd := [10, 20, 30], val_teardown := record_call } :
          linked_list Nat (List Nat)) 3).map
      (Option.map (fun r => (r.1.len, r.1.hd, r.2))) =
      Except.ok (some (2, [10, 20, 30], none)) ∧
    (linked_list_remove_n
        ({ len := 3, hd := [10, 20, 30], val_teardown := record_call } :
          linked_list Nat (List Nat)) 3 []).map (fun r => (r.1.len, r.1.hd)) =
      Except.error Fault.null_deref ∧
    (linked_list_remove_n
        ({ len := 3, hd := [10, 20, 30], val_teardown := record_call } :
          linked_list Nat (List Nat)) 1 []).map (fun r => (r.1.len, r.1.hd)) =
      Except.ok (2, [10, 30]) ∧
    (linked_list_insert_n
        ({ len := 3, hd := [10, 20, 30], val_teardown := record_call } :
          linked_list Nat (List Nat)) 99 1).map (fun r => (r.1.len, r.1.hd)) =
      Except.ok (4, [10, 99, 20, 30]) := by
  decide

end Crawler
